import Mathlib

/-!
# Rollup transfer circuit (`ZKCalistay/rollup/main.go`)

A shallow embedding of the circuit of `main.go`, evaluated at a witness.

* A `frontend.Variable` of an assigned witness is an element of the BN254 scalar
  field (`frontend.Compile(ecc.BN254.ScalarField(), ...)` in `main`), kept here by
  its canonical representative: `Variable = Fin fieldModulus`.
* The `frontend.API` collects assertions.  At a witness every assertion has an
  outcome, so the builder state is the list of the outcomes recorded so far.
* The gadgets of the gnark standard library that the circuit calls
  (`mimc`, `eddsa`, `merkle`) are not part of the repository.  The MiMC block
  cipher and the EdDSA verification are parameters (`Gadgets`); the hasher's
  `Reset`/`Write`/`Sum` bookkeeping and `MerkleProof.VerifyProof` follow the
  library's documented behaviour.
-/

namespace Rollup

/-! ## Field and data model -/

/-- Order of the BN254 scalar field, the field the circuit is compiled over. -/
def fieldModulus : Nat :=
  21888242871839275222246405745257275088548364400416034343698204186575808495617

instance fieldModulus_neZero : NeZero fieldModulus := ⟨by decide⟩

/-- A circuit variable at a witness: a field element, by canonical representative. -/
abbrev Variable := Fin fieldModulus

/-- Constant `depth` of `main.go`: the length given to every `Path` in `main`. -/
def depth : Nat := 5

/-- Affine point `twistededwards.Point`. -/
structure Point where
  X : Variable
  Y : Variable
deriving DecidableEq, Repr

/-- Key `eddsa.PublicKey`. -/
structure PublicKey where
  A : Point
deriving DecidableEq, Repr

/-- Signature `eddsa.Signature`. -/
structure Signature where
  R : Point
  S : Variable
deriving DecidableEq, Repr

/-- Struct `Account` of `main.go`. -/
structure Account where
  Nonce : Variable
  Balance : Variable
  Index : Variable
  PubKey : PublicKey
deriving DecidableEq, Repr

/-- Struct `Transfer` of `main.go`. -/
structure Transfer where
  Amount : Variable
  Nonce : Variable
  SenderPubKey : PublicKey
  ReceiverPubKey : PublicKey
  Signature : Signature
deriving DecidableEq, Repr

/-- Struct `merkle.MerkleProof`: the root and the path; `Path[0]` is the leaf,
the remaining entries are the sibling hashes from the leaf level upwards. -/
structure MerkleProof where
  RootHash : Variable
  Path : List Variable
deriving DecidableEq, Repr

/-- Struct `Circuit` of `main.go` (field names as in the source). -/
structure Circuit where
  SenderAccountBefore : Account
  ReciverAccountBefore : Account
  SenderAccountAfter : Account
  ReciverAccountAfter : Account
  Transfer : Transfer
  MerkleProofReceiverBefore : MerkleProof
  MerkleProofReceiverAfter : MerkleProof
  MerkleProofSenderBefore : MerkleProof
  MerkleProofSenderAfter : MerkleProof
  IndexReceiver : Variable
  IndexSender : Variable
  RootHashBefore : Variable
  RootHashAfter : Variable
deriving DecidableEq, Repr

/-- Go `error` value. -/
abbrev Error := String

/-! ## The constraint builder `frontend.API` -/

/-- Builder state at a witness: the outcomes of the assertions recorded so far,
oldest first. -/
structure API where
  assertions : List Bool
deriving DecidableEq, Repr

/-- Record the outcome of one assertion. -/
def API.assert (api : API) (b : Bool) : API :=
  { assertions := api.assertions ++ [b] }

/-- Field addition `api.Add`. -/
def API.Add (_api : API) (a b : Variable) : Variable := a + b

/-- Field subtraction `api.Sub`. -/
def API.Sub (_api : API) (a b : Variable) : Variable := a - b

/-- Assertion `api.AssertIsEqual`: equality of field elements. -/
def API.AssertIsEqual (api : API) (a b : Variable) : API :=
  api.assert (decide (a = b))

/-- Assertion `api.AssertIsLessOrEqual(v, bound)`: fails if `v > bound`, the two
compared through their binary decompositions, that is as unsigned integers. -/
def API.AssertIsLessOrEqual (api : API) (v bound : Variable) : API :=
  api.assert (decide (v.val ≤ bound.val))

/-- Selector `api.Select(b, x, y)`: `x` when the bit is one, `y` otherwise. -/
def API.Select (_api : API) (b x y : Variable) : Variable :=
  if b = 1 then x else y

/-- Decomposition `api.ToBinary(v, n)`: the `n` low bits of `v`, least significant
first, together with the assertion that they recompose `v`, which holds exactly
when `v < 2 ^ n`.  A decomposition over zero digits is refused when the circuit
is built: `none`. -/
def API.ToBinary (api : API) (v : Variable) (n : Nat) : Option (API × List Variable) :=
  if n = 0 then none
  else some (api.assert (decide (v.val < 2 ^ n)),
    (List.range n).map (fun i => if v.val.testBit i then 1 else 0))

/-- Verdict of a builder state: every recorded assertion holds. -/
def API.satisfied (api : API) : Bool := api.assertions.all id

/-! ## MiMC hasher (`std/hash/mimc`) -/

/-- Hasher `mimc.MiMC`: the running state `h` of the Miyaguchi-Preneel chain and
the data written since the last `Sum`. -/
structure MiMC where
  h : Variable
  data : List Variable
deriving DecidableEq, Repr

/-- Constructor `mimc.NewMiMC`: state zero, nothing written. -/
def NewMiMC : MiMC := { h := 0, data := [] }

/-- Method `Write`: append to the pending data. -/
def MiMC.Write (m : MiMC) (data : List Variable) : MiMC :=
  { m with data := m.data ++ data }

/-- Method `Reset`: back to the initial state. -/
def MiMC.Reset (_m : MiMC) : MiMC := { h := 0, data := [] }

/-- Method `Sum`: absorb the pending data, `h := h + E_h(x) + x` for each written
`x` in order, flush it, and return the state. -/
def MiMC.Sum (enc : Variable → Variable → Variable) (m : MiMC) : Variable × MiMC :=
  let h := m.data.foldl (fun h stream => h + enc h stream + stream) m.h
  (h, { h := h, data := [] })

/-- The external gadgets: the MiMC block cipher `encryptFunc` (key, message) and
`eddsa.Verify` on the BN254 twisted Edwards curve.  `Verify sig msg pubKey hash`
gives the outcome of the assertions the library adds for the verification
equation, given the hasher it is handed, and the Go error it returns. -/
structure Gadgets where
  encryptFunc : Variable → Variable → Variable
  Verify : Signature → Variable → PublicKey → MiMC → Bool × Option Error

/-! ## Merkle proof verification (`std/accumulator/merkle`) -/

/-- Helper `leafSum`: hash of the leaf data from a reset hasher. -/
def leafSum (enc : Variable → Variable → Variable) (h : MiMC) (data : Variable) :
    Variable × MiMC :=
  let h := h.Reset
  let h := h.Write [data]
  h.Sum enc

/-- Helper `nodeSum`: hash of two children from a reset hasher. -/
def nodeSum (enc : Variable → Variable → Variable) (h : MiMC) (a b : Variable) :
    Variable × MiMC :=
  let h := h.Reset
  let h := h.Write [a, b]
  h.Sum enc

/-- Loop of `VerifyProof`, `for i := 1; i < len(mp.Path); i++`: at each level the
bit `binLeaf[i-1]` orders the running sum and `Path[i]` before they are hashed.
The first list holds the bits still to be used, the second the path entries. -/
def verifyLoop (enc : Variable → Variable → Variable) (api : API) :
    List Variable → List Variable → Variable → MiMC → Variable × MiMC
  | bit :: bits, p :: path, sum, h =>
    let d1 := api.Select bit p sum
    let d2 := api.Select bit sum p
    let (sum, h) := nodeSum enc h d1 d2
    verifyLoop enc api bits path sum h
  | _, _, sum, h => (sum, h)

/-- Method `MerkleProof.VerifyProof(api, h, leaf)`, `leaf` being the index of the
leaf.  `mp.Path[0]` on an empty path is an index out of range, and a path with
the leaf alone asks for a decomposition over zero digits: `none` in both cases. -/
def MerkleProof.VerifyProof (mp : MerkleProof) (enc : Variable → Variable → Variable)
    (api : API) (h : MiMC) (leaf : Variable) : Option (API × MiMC) :=
  match mp.Path with
  | [] => none
  | data :: siblings =>
    let depth := (data :: siblings).length - 1
    let (sum, h) := leafSum enc h data
    match api.ToBinary leaf depth with
    | none => none
    | some (api, binLeaf) =>
      let (sum, h) := verifyLoop enc api binLeaf siblings sum h
      some (api.AssertIsEqual sum mp.RootHash, h)

/-! ## The circuit of `main.go` -/

/-- Function `verifyUpdated` of `main.go` (`from_`, `to_` for the parameters `from`, `to`). -/
def verifyUpdated (api : API) (from_ to_ fromUpdated toUpdated : Account)
    (amount : Variable) : API :=
  let nonceUpdated := api.Add from_.Nonce 1
  let api := api.AssertIsEqual nonceUpdated fromUpdated.Nonce
  let api := api.AssertIsLessOrEqual amount from_.Balance
  -- for sender
  let newFromBalanced := api.Sub from_.Balance amount
  let api := api.AssertIsEqual newFromBalanced fromUpdated.Balance
  -- for receiver
  let newToBalanced := api.Add to_.Balance amount
  let api := api.AssertIsEqual newToBalanced toUpdated.Balance
  let api := api.AssertIsEqual from_.PubKey.A.X fromUpdated.PubKey.A.X
  let api := api.AssertIsEqual from_.PubKey.A.Y fromUpdated.PubKey.A.Y
  let api := api.AssertIsEqual to_.PubKey.A.X toUpdated.PubKey.A.X
  let api := api.AssertIsEqual to_.PubKey.A.Y toUpdated.PubKey.A.Y
  api

/-- The message `hTransfer` of `verifySignature` and the hasher after it: the
hasher received (a copy, the parameter is passed by value) is reset, the six
transfer fields are written and summed. -/
def transferDigest (enc : Variable → Variable → Variable) (t : Transfer) (hFunc : MiMC) :
    Variable × MiMC :=
  let hFunc := hFunc.Reset
  let hFunc := hFunc.Write [t.Nonce, t.Amount, t.SenderPubKey.A.X, t.SenderPubKey.A.Y,
    t.ReceiverPubKey.A.X, t.ReceiverPubKey.A.Y]
  hFunc.Sum enc

/-- Function `verifySignature` of `main.go`: the assertions of `eddsa.Verify` are
recorded on the builder, its error is returned. -/
def verifySignature (G : Gadgets) (api : API) (t : Transfer) (hFunc : MiMC) :
    API × Option Error :=
  let (hTransfer, hFunc) := transferDigest G.encryptFunc t hFunc
  let (holds, err) := G.Verify t.Signature hTransfer t.SenderPubKey hFunc
  let api := api.assert holds
  match err with
  | some e => (api, some e)
  | none => (api, none)

/-- Method `Circuit.Define` of `main.go`.  The error of `verifySignature` is
dropped, as in the source; the hasher is handed to `verifySignature` by value
and to `VerifyProof` by reference. -/
def Circuit.Define (circuit : Circuit) (G : Gadgets) (api : API) :
    Option (API × Option Error) := do
  let api := verifyUpdated api circuit.SenderAccountBefore circuit.ReciverAccountBefore
    circuit.SenderAccountAfter circuit.ReciverAccountAfter circuit.Transfer.Amount
  let hFunc := NewMiMC
  let (api, _) := verifySignature G api circuit.Transfer hFunc
  let api := api.AssertIsEqual circuit.RootHashBefore circuit.MerkleProofReceiverBefore.RootHash
  let api := api.AssertIsEqual circuit.RootHashBefore circuit.MerkleProofSenderBefore.RootHash
  let api := api.AssertIsEqual circuit.RootHashAfter circuit.MerkleProofReceiverAfter.RootHash
  let api := api.AssertIsEqual circuit.RootHashAfter circuit.MerkleProofSenderAfter.RootHash
  -- the leafs of the Merkle proofs must match the index of the accounts
  let api := api.AssertIsEqual circuit.ReciverAccountBefore.Index circuit.IndexReceiver
  let api := api.AssertIsEqual circuit.ReciverAccountBefore.Index circuit.IndexReceiver
  let api := api.AssertIsEqual circuit.SenderAccountBefore.Index circuit.IndexSender
  let api := api.AssertIsEqual circuit.SenderAccountAfter.Index circuit.IndexSender
  -- verify the inclusion proofs
  let (api, hFunc) ← circuit.MerkleProofReceiverBefore.VerifyProof G.encryptFunc api hFunc
    circuit.IndexReceiver
  let (api, hFunc) ← circuit.MerkleProofSenderBefore.VerifyProof G.encryptFunc api hFunc
    circuit.IndexSender
  let (api, hFunc) ← circuit.MerkleProofReceiverAfter.VerifyProof G.encryptFunc api hFunc
    circuit.IndexReceiver
  let (api, _) ← circuit.MerkleProofSenderAfter.VerifyProof G.encryptFunc api hFunc
    circuit.IndexSender
  return (api, none)

/-- Shape fixed by `main`: each of the four paths is allocated with `depth`
entries before the circuit is compiled. -/
def Circuit.wellShaped (c : Circuit) : Bool :=
  c.MerkleProofReceiverBefore.Path.length == depth &&
  c.MerkleProofReceiverAfter.Path.length == depth &&
  c.MerkleProofSenderBefore.Path.length == depth &&
  c.MerkleProofSenderAfter.Path.length == depth

/-- A witness is accepted when it has the shape of the compiled circuit, `Define`
runs to its end without error, and every assertion it recorded holds. -/
def accepts (G : Gadgets) (c : Circuit) : Bool :=
  c.wellShaped &&
  match c.Define G { assertions := [] } with
  | some (api, none) => api.satisfied
  | _ => false

/-! ## A stub instance of the gadgets and a sample witness -/

/-- Stub block cipher for concrete evaluation: `E_k(m) = k + m`, so that one
absorption step of the hasher is `h := 2 h + 2 x`. -/
def stubEnc (k m : Variable) : Variable := k + m

/-- Stub signature check for concrete evaluation, of the Schnorr shape
`S * G = R + H(R, A, M) * A` read in the additive group of the field with
`G = 1` and points taken by their `X` coordinate.  The challenge is hashed with
the hasher handed over, as `eddsa.Verify` does; no error is returned. -/
def stubVerify (sig : Signature) (msg : Variable) (pubKey : PublicKey) (hash : MiMC) :
    Bool × Option Error :=
  let hash := hash.Write [sig.R.X, sig.R.Y, pubKey.A.X, pubKey.A.Y, msg]
  let hRAM := (hash.Sum stubEnc).1
  (decide (sig.S = sig.R.X + hRAM * pubKey.A.X), none)

/-- The stub gadgets. -/
def stubGadgets : Gadgets := { encryptFunc := stubEnc, Verify := stubVerify }

/-- Key of the sample sender. -/
def senderKey : PublicKey := { A := { X := 11, Y := 12 } }

/-- Key of the sample receiver. -/
def receiverKey : PublicKey := { A := { X := 21, Y := 22 } }

/-- Sample transfer: amount 40 at nonce 3 from `senderKey` to `receiverKey`, with
the signature `R = (5, 6)`, `S = 5 + 64040 * 11` that `stubVerify` accepts for it. -/
def sampleTransfer : Transfer :=
  { Amount := 40, Nonce := 3, SenderPubKey := senderKey, ReceiverPubKey := receiverKey,
    Signature := { R := { X := 5, Y := 6 }, S := 704445 } }

/-- Sample witness over a tree of sixteen leaves, empty (data 0) but for the
sender at index 2 and the receiver at index 5.  The leaf data of an account is
the stub hash `16 nonce + 8 balance + 4 X + 2 Y` of its contents; a leaf is hashed
as `2 x` and a node as `4 left + 2 right`.

Before the transfer the data are 916 and 320, the hashed leaves 1832 and 640.
Sender, index 2, bits 0,1,0,0: `H[1832, 0] = 7328`, `H[0, 7328] = 14656`,
`H[14656, 5120] = 68864`, `H[68864, 0] = 275456`.  Receiver, index 5, bits
1,0,1,0: `H[0, 640] = 1280`, `H[1280, 0] = 5120`, `H[14656, 5120] = 68864`,
`H[68864, 0] = 275456`.  After the transfer the data are 612 and 640 and the
same climbs end at 238592.

The digest of the transfer is `64*3 + 32*40 + 16*11 + 8*12 + 4*21 + 2*22 = 1872`,
the challenge hashed from that state over `5, 6, 11, 12, 1872` is 64040. -/
def sampleWitness : Circuit :=
  { SenderAccountBefore := { Nonce := 3, Balance := 100, Index := 2, PubKey := senderKey },
    ReciverAccountBefore := { Nonce := 7, Balance := 10, Index := 5, PubKey := receiverKey },
    SenderAccountAfter := { Nonce := 4, Balance := 60, Index := 2, PubKey := senderKey },
    ReciverAccountAfter := { Nonce := 7, Balance := 50, Index := 5, PubKey := receiverKey },
    Transfer := sampleTransfer,
    MerkleProofReceiverBefore := { RootHash := 275456, Path := [320, 0, 0, 14656, 0] },
    MerkleProofReceiverAfter := { RootHash := 238592, Path := [640, 0, 0, 9792, 0] },
    MerkleProofSenderBefore := { RootHash := 275456, Path := [916, 0, 0, 5120, 0] },
    MerkleProofSenderAfter := { RootHash := 238592, Path := [612, 0, 0, 10240, 0] },
    IndexReceiver := 5,
    IndexSender := 2,
    RootHashBefore := 275456,
    RootHashAfter := 238592 }

/-- The largest field element, `fieldModulus - 1`. -/
def maxVariable : Variable :=
  21888242871839275222246405745257275088548364400416034343698204186575808495616

/-- The sample witness with the receiver holding `fieldModulus - 1` before the
transfer and 39 after it, the leaves, siblings and roots being those of the two
trees with these account contents.  The receiver data are
`16*7 + 8*(fieldModulus - 1) + 4*21 + 2*22 = 232` in the field before and
`16*7 + 8*39 + 4*21 + 2*22 = 552` after; the receiver subtree seen from the
sender is `4 * (2 * (2 * 232)) = 3712` before and `4 * (2 * (2 * 552)) = 8832`
after, the roots `4 * (4 * 14656 + 2 * 3712) = 264192` and
`4 * (4 * 9792 + 2 * 8832) = 227328`. -/
def overflowWitness : Circuit :=
  { sampleWitness with
    ReciverAccountBefore := { Nonce := 7, Balance := maxVariable, Index := 5,
                              PubKey := receiverKey },
    ReciverAccountAfter := { Nonce := 7, Balance := 39, Index := 5, PubKey := receiverKey },
    MerkleProofReceiverBefore := { RootHash := 264192, Path := [232, 0, 0, 14656, 0] },
    MerkleProofReceiverAfter := { RootHash := 227328, Path := [552, 0, 0, 9792, 0] },
    MerkleProofSenderBefore := { RootHash := 264192, Path := [916, 0, 0, 3712, 0] },
    MerkleProofSenderAfter := { RootHash := 227328, Path := [612, 0, 0, 8832, 0] },
    RootHashBefore := 264192,
    RootHashAfter := 227328 }

/-- A key that belongs to neither sample account. -/
def foreignKey : PublicKey := { A := { X := 31, Y := 32 } }

/-- The sample witness with the transfer issued and signed under `foreignKey`
instead of the key of the debited account.  The digest is
`64*3 + 32*40 + 16*31 + 8*32 + 4*21 + 2*22 = 2352`, the challenge hashed from
that state over `5, 6, 31, 32, 2352` is 80600, and `S = 5 + 80600 * 31`. -/
def foreignSignerWitness : Circuit :=
  { sampleWitness with
    Transfer := { Amount := 40, Nonce := 3, SenderPubKey := foreignKey,
                  ReceiverPubKey := receiverKey,
                  Signature := { R := { X := 5, Y := 6 }, S := 2498605 } } }

/-- The sample witness with the sender claiming a balance of 1000 before and 960
after the transfer, over the unchanged proofs, whose sender leaves hash the
balances 100 and 60. -/
def unboundLeafWitness : Circuit :=
  { sampleWitness with
    SenderAccountBefore := { Nonce := 3, Balance := 1000, Index := 2, PubKey := senderKey },
    SenderAccountAfter := { Nonce := 4, Balance := 960, Index := 2, PubKey := senderKey } }

/-- The sample witness with the receiver's account after the transfer carrying
index 9 while `IndexReceiver` is 5. -/
def receiverAfterIndexWitness : Circuit :=
  { sampleWitness with
    ReciverAccountAfter := { Nonce := 7, Balance := 50, Index := 9, PubKey := receiverKey } }

/-- The sample witness with the transfer amount raised to 101, above the
sender's balance of 100. -/
def overdrawnWitness : Circuit :=
  { sampleWitness with Transfer := { sampleTransfer with Amount := 101 } }

/-! ## Closed forms -/

/-- The hash of a sequence of field elements from the initial hasher state: the
Miyaguchi-Preneel chain `h := h + E_h(x) + x` started at zero. -/
def mimcHash (enc : Variable → Variable → Variable) (xs : List Variable) : Variable :=
  xs.foldl (fun h x => h + enc h x + x) 0

/-- Bits of an index as `ToBinary` returns them, least significant first. -/
def indexBits (v : Variable) (n : Nat) : List Variable :=
  (List.range n).map (fun i => if v.val.testBit i then 1 else 0)

/-- The running hash of `VerifyProof` without the hasher bookkeeping: a bit equal
to one puts the path entry on the left, otherwise the running hash is on the left. -/
def climb (enc : Variable → Variable → Variable) :
    List Variable → List Variable → Variable → Variable
  | bit :: bits, p :: path, sum =>
    climb enc bits path
      (mimcHash enc [if bit = 1 then p else sum, if bit = 1 then sum else p])
  | _, _, sum => sum

/-- Outcome of `VerifyProof` at an index: the path is not empty, the index fits the
number of levels, and the climb from the hashed leaf ends at the claimed root. -/
def proofHolds (enc : Variable → Variable → Variable) (mp : MerkleProof)
    (index : Variable) : Bool :=
  match mp.Path with
  | [] => false
  | data :: siblings =>
    decide (index.val < 2 ^ siblings.length) &&
    decide (climb enc (indexBits index siblings.length) siblings (mimcHash enc [data])
      = mp.RootHash)

/-- Outcome of the assertion `verifySignature` records for a transfer. -/
def signatureHolds (G : Gadgets) (t : Transfer) : Bool :=
  (G.Verify t.Signature (transferDigest G.encryptFunc t NewMiMC).1 t.SenderPubKey
    (transferDigest G.encryptFunc t NewMiMC).2).1

/-- Outcome of the eight assertions of `verifyUpdated`. -/
def updatedHolds (from_ to_ fromUpdated toUpdated : Account) (amount : Variable) : Bool :=
  decide (from_.Nonce + 1 = fromUpdated.Nonce) &&
  decide (amount.val ≤ from_.Balance.val) &&
  decide (from_.Balance - amount = fromUpdated.Balance) &&
  decide (to_.Balance + amount = toUpdated.Balance) &&
  decide (from_.PubKey.A.X = fromUpdated.PubKey.A.X) &&
  decide (from_.PubKey.A.Y = fromUpdated.PubKey.A.Y) &&
  decide (to_.PubKey.A.X = toUpdated.PubKey.A.X) &&
  decide (to_.PubKey.A.Y = toUpdated.PubKey.A.Y)

/-- The six fields of a transfer that `verifySignature` writes to the hasher, in
the order of the source. -/
def transferFields (t : Transfer) : List Variable :=
  [t.Nonce, t.Amount, t.SenderPubKey.A.X, t.SenderPubKey.A.Y,
   t.ReceiverPubKey.A.X, t.ReceiverPubKey.A.Y]

/-- The leaf content the specification asks for: the hash of the nonce, the
balance and the two key coordinates of an account.  The circuit never computes
it. -/
def accountHash (enc : Variable → Variable → Variable) (a : Account) : Variable :=
  mimcHash enc [a.Nonce, a.Balance, a.PubKey.A.X, a.PubKey.A.Y]

/-- The verification of the signature scheme: `eddsa.Verify` handed a hasher in
its initial state, so that the challenge is the hash of `R`, `A` and the message
and of nothing else. -/
def schemeVerifies (G : Gadgets) (sig : Signature) (msg : Variable) (pubKey : PublicKey) :
    Bool :=
  (G.Verify sig msg pubKey NewMiMC).1

/-- The sample witness with the signature that the scheme accepts for the sample
transfer: hashed from the initial state over `5, 6, 11, 12, 1872` the challenge is
4136, and `S = 5 + 4136 * 11`. -/
def freshSignedWitness : Circuit :=
  { sampleWitness with
    Transfer := { sampleTransfer with Signature := { R := { X := 5, Y := 6 }, S := 45501 } } }

/-- The sample witness with the nonce of the sender at `fieldModulus - 1` before
the transfer and at 0 after it, the leaves, siblings and roots being those of the
two trees with these account contents.  The sender data are
`16*(fieldModulus - 1) + 8*100 + 4*11 + 2*12 = 852` in the field before and
`16*0 + 8*60 + 4*11 + 2*12 = 548` after; the sender subtree seen from the
receiver is `2 * (4 * (2 * 852)) = 13632` before and `2 * (4 * (2 * 548)) = 8768`
after, the roots `4 * (4 * 13632 + 2 * 5120) = 259072` and
`4 * (4 * 8768 + 2 * 10240) = 222208`. -/
def nonceWrapWitness : Circuit :=
  { sampleWitness with
    SenderAccountBefore := { Nonce := maxVariable, Balance := 100, Index := 2,
                             PubKey := senderKey },
    SenderAccountAfter := { Nonce := 0, Balance := 60, Index := 2, PubKey := senderKey },
    MerkleProofReceiverBefore := { RootHash := 259072, Path := [320, 0, 0, 13632, 0] },
    MerkleProofReceiverAfter := { RootHash := 222208, Path := [640, 0, 0, 8768, 0] },
    MerkleProofSenderBefore := { RootHash := 259072, Path := [852, 0, 0, 5120, 0] },
    MerkleProofSenderAfter := { RootHash := 222208, Path := [548, 0, 0, 10240, 0] },
    RootHashBefore := 259072,
    RootHashAfter := 222208 }

/-- The sample witness with the proof of the sender before the transfer taken
from another tree: the proof verifies, at index 2, against its own root 264192,
while the proof of the receiver keeps the root 275456. -/
def splitRootsWitness : Circuit :=
  { sampleWitness with
    MerkleProofSenderBefore := { RootHash := 264192, Path := [916, 0, 0, 3712, 0] } }

/-- The sample witness with the `Y` coordinate of the receiver's key changed by
the transfer. -/
def rotatedKeyWitness : Circuit :=
  { sampleWitness with
    ReciverAccountAfter := { Nonce := 7, Balance := 50, Index := 5,
                             PubKey := { A := { X := 21, Y := 23 } } } }

/-- The walk of an inclusion proof in the words of the specification: from the
leaf level towards the root, at level `i` the running hash and `path[i]` are
combined as `hash running path[i]` when bit `i` of the index is 0 and as
`hash path[i] running` when it is 1.  The level of the head of the path is the
first argument after the index. -/
def specWalk (hash : Variable → Variable → Variable) (index : Nat) :
    Nat → List Variable → Variable → Variable
  | _, [], running => running
  | i, p :: path, running =>
    specWalk hash index (i + 1) path
      (if index.testBit i then hash p running else hash running p)

/-- The verification of a proof as claimed by the specification: starting from the
leaf and walking the `depth` path elements from the leaf level to the root, with
the combination of `specWalk` at each level, the result after `depth`
combinations is the root. -/
def specVerifies (enc : Variable → Variable → Variable) (leaf : Variable)
    (path : List Variable) (index root : Variable) : Prop :=
  path.length = depth ∧
    specWalk (fun a b => mimcHash enc [a, b]) index.val 0 path leaf = root

instance specVerifies_decidable (enc : Variable → Variable → Variable) (leaf : Variable)
    (path : List Variable) (index root : Variable) :
    Decidable (specVerifies enc leaf path index root) := by
  unfold specVerifies
  infer_instance

/-- The verification of a proof as `VerifyProof` makes it: the path holds the leaf
and then the sibling hashes, `depth` entries in all, and the walk from the hash
of the leaf through the `depth - 1` siblings, ordered at each level by the bit of
the index, ends at the root the proof carries. -/
def verifiesAt (enc : Variable → Variable → Variable) (mp : MerkleProof)
    (index : Variable) : Prop :=
  ∃ data siblings, mp.Path = data :: siblings ∧ siblings.length + 1 = depth ∧
    specWalk (fun a b => mimcHash enc [a, b]) index.val 0 siblings (mimcHash enc [data]) =
      mp.RootHash

/-- The field element of a natural number. -/
def toVariable (n : Nat) : Variable := ⟨n % fieldModulus, Nat.mod_lt _ (by decide)⟩

/-- The stub hash of two children. -/
def stubNode (a b : Variable) : Variable := mimcHash stubEnc [a, b]

/-- The sample accounts and transfer over a tree whose only two leaves are the
sender at position `i` and the receiver at the neighbouring position `i xor 1`,
all other subtrees being empty (hash 0 under the stub hash).  The sibling of
each leaf is the hash of the other leaf; the roots are those of the two trees. -/
def pairWitness (i : Nat) : Circuit :=
  { sampleWitness with
    SenderAccountBefore := { Nonce := 3, Balance := 100, Index := toVariable i,
                             PubKey := senderKey },
    ReciverAccountBefore := { Nonce := 7, Balance := 10, Index := toVariable (i ^^^ 1),
                              PubKey := receiverKey },
    SenderAccountAfter := { Nonce := 4, Balance := 60, Index := toVariable i,
                            PubKey := senderKey },
    ReciverAccountAfter := { Nonce := 7, Balance := 50, Index := toVariable (i ^^^ 1),
                             PubKey := receiverKey },
    MerkleProofSenderBefore :=
      { RootHash := specWalk stubNode i 0 [640, 0, 0, 0] 1832, Path := [916, 640, 0, 0, 0] },
    MerkleProofReceiverBefore :=
      { RootHash := specWalk stubNode i 0 [640, 0, 0, 0] 1832, Path := [320, 1832, 0, 0, 0] },
    MerkleProofSenderAfter :=
      { RootHash := specWalk stubNode i 0 [1280, 0, 0, 0] 1224, Path := [612, 1280, 0, 0, 0] },
    MerkleProofReceiverAfter :=
      { RootHash := specWalk stubNode i 0 [1280, 0, 0, 0] 1224, Path := [640, 1224, 0, 0, 0] },
    IndexSender := toVariable i,
    IndexReceiver := toVariable (i ^^^ 1),
    RootHashBefore := specWalk stubNode i 0 [640, 0, 0, 0] 1832,
    RootHashAfter := specWalk stubNode i 0 [1280, 0, 0, 0] 1224 }

/-- Inclusion of a content-bound leaf as the specification states it: the path of
the proof is `depth` sibling hashes, the index is below `2 ^ depth`, and the walk
over the path from the leaf, which is the hash of the nonce, the balance and the
key of the account, ends at the root of the proof. -/
def specInclusion (enc : Variable → Variable → Variable) (mp : MerkleProof)
    (index : Variable) (a : Account) : Prop :=
  index.val < 2 ^ depth ∧ specVerifies enc (accountHash enc a) mp.Path index mp.RootHash

/-- The nine checks of the transition validator of the specification, in its
order: nonce progression, solvency, sender and receiver balance updates without
overflow, key immutability, a signature that the scheme accepts for the digest
of the transfer under the key of the transfer, which is the key of the sender
account, root consistency, index binding in all four states, and inclusion of
the four content-bound leaves. -/
def nineChecks (G : Gadgets) (c : Circuit) : Prop :=
  c.SenderAccountAfter.Nonce.val = c.SenderAccountBefore.Nonce.val + 1 ∧
  c.Transfer.Amount.val ≤ c.SenderAccountBefore.Balance.val ∧
  c.SenderAccountAfter.Balance.val + c.Transfer.Amount.val =
    c.SenderAccountBefore.Balance.val ∧
  c.ReciverAccountAfter.Balance.val =
    c.ReciverAccountBefore.Balance.val + c.Transfer.Amount.val ∧
  (c.SenderAccountBefore.PubKey = c.SenderAccountAfter.PubKey ∧
    c.ReciverAccountBefore.PubKey = c.ReciverAccountAfter.PubKey) ∧
  (c.Transfer.SenderPubKey = c.SenderAccountBefore.PubKey ∧
    schemeVerifies G c.Transfer.Signature
      (mimcHash G.encryptFunc (transferFields c.Transfer)) c.Transfer.SenderPubKey = true) ∧
  (c.MerkleProofSenderBefore.RootHash = c.RootHashBefore ∧
    c.MerkleProofReceiverBefore.RootHash = c.RootHashBefore ∧
    c.MerkleProofSenderAfter.RootHash = c.RootHashAfter ∧
    c.MerkleProofReceiverAfter.RootHash = c.RootHashAfter) ∧
  (c.SenderAccountBefore.Index = c.IndexSender ∧
    c.SenderAccountAfter.Index = c.IndexSender ∧
    c.ReciverAccountBefore.Index = c.IndexReceiver ∧
    c.ReciverAccountAfter.Index = c.IndexReceiver) ∧
  (specInclusion G.encryptFunc c.MerkleProofSenderBefore c.IndexSender
      c.SenderAccountBefore ∧
    specInclusion G.encryptFunc c.MerkleProofReceiverBefore c.IndexReceiver
      c.ReciverAccountBefore ∧
    specInclusion G.encryptFunc c.MerkleProofSenderAfter c.IndexSender
      c.SenderAccountAfter ∧
    specInclusion G.encryptFunc c.MerkleProofReceiverAfter c.IndexReceiver
      c.ReciverAccountAfter)

instance nineChecks_decidable (G : Gadgets) (c : Circuit) : Decidable (nineChecks G c) := by
  unfold nineChecks specInclusion
  infer_instance

/-- Inclusion of a content-bound leaf in the layout of `VerifyProof`: the proof
verifies at the index from its leaf `Path[0]` through `depth - 1` siblings, the
index is below `2 ^ (depth - 1)`, and the leaf is the hash of the nonce, the
balance and the key of the account. -/
def layoutInclusion (enc : Variable → Variable → Variable) (mp : MerkleProof)
    (index : Variable) (a : Account) : Prop :=
  verifiesAt enc mp index ∧ index.val < 2 ^ (depth - 1) ∧
    mp.Path.head? = some (accountHash enc a)

/-- The checks of the specification other than the validity of the signature,
with inclusion taken in the layout of `VerifyProof`: nonce progression, solvency,
sender and receiver balance updates without overflow, key immutability, the key
of the transfer being the key of the sender account, root consistency, index
binding in all four states, and inclusion of the four content-bound leaves. -/
def layoutChecks (enc : Variable → Variable → Variable) (c : Circuit) : Prop :=
  c.SenderAccountAfter.Nonce.val = c.SenderAccountBefore.Nonce.val + 1 ∧
  c.Transfer.Amount.val ≤ c.SenderAccountBefore.Balance.val ∧
  c.SenderAccountAfter.Balance.val + c.Transfer.Amount.val =
    c.SenderAccountBefore.Balance.val ∧
  c.ReciverAccountAfter.Balance.val =
    c.ReciverAccountBefore.Balance.val + c.Transfer.Amount.val ∧
  (c.SenderAccountBefore.PubKey = c.SenderAccountAfter.PubKey ∧
    c.ReciverAccountBefore.PubKey = c.ReciverAccountAfter.PubKey) ∧
  c.Transfer.SenderPubKey = c.SenderAccountBefore.PubKey ∧
  (c.MerkleProofSenderBefore.RootHash = c.RootHashBefore ∧
    c.MerkleProofReceiverBefore.RootHash = c.RootHashBefore ∧
    c.MerkleProofSenderAfter.RootHash = c.RootHashAfter ∧
    c.MerkleProofReceiverAfter.RootHash = c.RootHashAfter) ∧
  (c.SenderAccountBefore.Index = c.IndexSender ∧
    c.SenderAccountAfter.Index = c.IndexSender ∧
    c.ReciverAccountBefore.Index = c.IndexReceiver ∧
    c.ReciverAccountAfter.Index = c.IndexReceiver) ∧
  (layoutInclusion enc c.MerkleProofSenderBefore c.IndexSender c.SenderAccountBefore ∧
    layoutInclusion enc c.MerkleProofReceiverBefore c.IndexReceiver
      c.ReciverAccountBefore ∧
    layoutInclusion enc c.MerkleProofSenderAfter c.IndexSender c.SenderAccountAfter ∧
    layoutInclusion enc c.MerkleProofReceiverAfter c.IndexReceiver c.ReciverAccountAfter)

/-- A witness in the layout of the specification, over a tree of 32 leaves that is
empty but for the sample sender at position 18 and the sample receiver at
position 21: each path is five sibling hashes and the leaf of an account is the
hash of its contents, 916 and 320 before the transfer, 612 and 640 after it.
Sender, bits 0,1,0,0,1: `H[916, 0] = 3664`, `H[0, 3664] = 7328`,
`H[7328, 2560] = 34432`, `H[34432, 0] = 137728`, `H[0, 137728] = 275456`.
Receiver, bits 1,0,1,0,1: `H[0, 320] = 640`, `H[640, 0] = 2560`,
`H[7328, 2560] = 34432` and on to 275456.  After the transfer the same walks end
at 238592.  The signature is the one the scheme accepts for the transfer. -/
def specLayoutWitness : Circuit :=
  { SenderAccountBefore := { Nonce := 3, Balance := 100, Index := 18, PubKey := senderKey },
    ReciverAccountBefore := { Nonce := 7, Balance := 10, Index := 21, PubKey := receiverKey },
    SenderAccountAfter := { Nonce := 4, Balance := 60, Index := 18, PubKey := senderKey },
    ReciverAccountAfter := { Nonce := 7, Balance := 50, Index := 21, PubKey := receiverKey },
    Transfer := freshSignedWitness.Transfer,
    MerkleProofReceiverBefore := { RootHash := 275456, Path := [0, 0, 7328, 0, 0] },
    MerkleProofReceiverAfter := { RootHash := 238592, Path := [0, 0, 4896, 0, 0] },
    MerkleProofSenderBefore := { RootHash := 275456, Path := [0, 0, 2560, 0, 0] },
    MerkleProofSenderAfter := { RootHash := 238592, Path := [0, 0, 5120, 0, 0] },
    IndexReceiver := 21,
    IndexSender := 18,
    RootHashBefore := 275456,
    RootHashAfter := 238592 }

/-- The sample transfer with the receiver swapped for `foreignKey`, the nonce,
amount, sender key and signature kept. -/
def swappedReceiverTransfer : Transfer :=
  { sampleTransfer with ReceiverPubKey := foreignKey }

/-- The inverse of 374 in the field: `374 * inverse374 = 1`. -/
def inverse374 : Variable :=
  7315589195133447601018183738388126700718036230085572975834961292304748828749

/-- The four proofs of a witness. -/
inductive ProofSlot where
  | receiverBefore
  | receiverAfter
  | senderBefore
  | senderAfter
deriving DecidableEq, Repr

/-- The proof in a slot. -/
def Circuit.proofAt (c : Circuit) : ProofSlot → MerkleProof
  | .receiverBefore => c.MerkleProofReceiverBefore
  | .receiverAfter => c.MerkleProofReceiverAfter
  | .senderBefore => c.MerkleProofSenderBefore
  | .senderAfter => c.MerkleProofSenderAfter

/-- The index input `Define` verifies the proof of a slot at. -/
def Circuit.indexAt (c : Circuit) : ProofSlot → Variable
  | .receiverBefore => c.IndexReceiver
  | .receiverAfter => c.IndexReceiver
  | .senderBefore => c.IndexSender
  | .senderAfter => c.IndexSender

/-- The witness with the path of one proof replaced, every other field kept. -/
def Circuit.withPath (c : Circuit) (s : ProofSlot) (path : List Variable) : Circuit :=
  match s with
  | .receiverBefore =>
    { c with MerkleProofReceiverBefore := { c.MerkleProofReceiverBefore with Path := path } }
  | .receiverAfter =>
    { c with MerkleProofReceiverAfter := { c.MerkleProofReceiverAfter with Path := path } }
  | .senderBefore =>
    { c with MerkleProofSenderBefore := { c.MerkleProofSenderBefore with Path := path } }
  | .senderAfter =>
    { c with MerkleProofSenderAfter := { c.MerkleProofSenderAfter with Path := path } }

/-- The inputs hashed at the nodes during a climb, from the leaf level upwards. -/
def climbInputs (enc : Variable → Variable → Variable) :
    List Variable → List Variable → Variable → List (List Variable)
  | bit :: bits, p :: path, sum =>
    [if bit = 1 then p else sum, if bit = 1 then sum else p] ::
      climbInputs enc bits path
        (mimcHash enc [if bit = 1 then p else sum, if bit = 1 then sum else p])
  | _, _, _ => []

/-- All the inputs `VerifyProof` hashes for a path at an index: the leaf data,
then the pair of children at each level. -/
def proofInputs (enc : Variable → Variable → Variable) (path : List Variable)
    (index : Variable) : List (List Variable) :=
  match path with
  | [] => []
  | data :: siblings =>
    [data] :: climbInputs enc (indexBits index siblings.length) siblings (mimcHash enc [data])

/-- The hash has no collision among the listed inputs: two of them with the same
hash are equal. -/
def collisionFreeOn (enc : Variable → Variable → Variable) (S : List (List Variable)) :
    Prop :=
  ∀ xs ∈ S, ∀ ys ∈ S, mimcHash enc xs = mimcHash enc ys → xs = ys

instance collisionFreeOn_decidable (enc : Variable → Variable → Variable)
    (S : List (List Variable)) : Decidable (collisionFreeOn enc S) := by
  unfold collisionFreeOn
  infer_instance

/-! ## Lemmas on the embedding -/

theorem leafSum_eq (enc : Variable → Variable → Variable) (h : MiMC) (data : Variable) :
    leafSum enc h data = (mimcHash enc [data], { h := mimcHash enc [data], data := [] }) := by
  simp [leafSum, MiMC.Reset, MiMC.Write, MiMC.Sum, mimcHash]

theorem nodeSum_eq (enc : Variable → Variable → Variable) (h : MiMC) (a b : Variable) :
    nodeSum enc h a b = (mimcHash enc [a, b], { h := mimcHash enc [a, b], data := [] }) := by
  simp [nodeSum, MiMC.Reset, MiMC.Write, MiMC.Sum, mimcHash]

theorem verifyLoop_fst (enc : Variable → Variable → Variable) (api : API)
    (bits path : List Variable) (sum : Variable) (h : MiMC) :
    (verifyLoop enc api bits path sum h).1 = climb enc bits path sum := by
  induction bits generalizing path sum h with
  | nil => simp [verifyLoop, climb]
  | cons bit bits ih =>
    cases path with
    | nil => simp [verifyLoop, climb]
    | cons p path => simp [verifyLoop, climb, nodeSum_eq, API.Select, ih]

theorem VerifyProof_one (enc : Variable → Variable → Variable) (api : API) (h : MiMC)
    (root data : Variable) (index : Variable) :
    MerkleProof.VerifyProof { RootHash := root, Path := [data] } enc api h index = none := by
  simp [MerkleProof.VerifyProof, API.ToBinary]

theorem VerifyProof_cons (enc : Variable → Variable → Variable) (api : API) (h : MiMC)
    (root data s : Variable) (siblings : List Variable) (index : Variable) :
    MerkleProof.VerifyProof { RootHash := root, Path := data :: s :: siblings } enc api h index
      = some ({ assertions := api.assertions ++
          [decide (index.val < 2 ^ (s :: siblings).length),
           decide (climb enc (indexBits index (s :: siblings).length) (s :: siblings)
             (mimcHash enc [data]) = root)] },
        (verifyLoop enc (api.assert (decide (index.val < 2 ^ (s :: siblings).length)))
          (indexBits index (s :: siblings).length) (s :: siblings) (mimcHash enc [data])
          { h := mimcHash enc [data], data := [] }).2) := by
  simp [MerkleProof.VerifyProof, leafSum_eq, API.ToBinary, API.AssertIsEqual, API.assert,
    indexBits,
    ← verifyLoop_fst enc (api.assert (decide (index.val < 2 ^ (siblings.length + 1))))
      _ (s :: siblings) _ { h := mimcHash enc [data], data := [] }]

theorem verifyUpdated_assertions (api : API) (from_ to_ fromUpdated toUpdated : Account)
    (amount : Variable) :
    (verifyUpdated api from_ to_ fromUpdated toUpdated amount).assertions =
      api.assertions ++
      [decide (from_.Nonce + 1 = fromUpdated.Nonce),
       decide (amount.val ≤ from_.Balance.val),
       decide (from_.Balance - amount = fromUpdated.Balance),
       decide (to_.Balance + amount = toUpdated.Balance),
       decide (from_.PubKey.A.X = fromUpdated.PubKey.A.X),
       decide (from_.PubKey.A.Y = fromUpdated.PubKey.A.Y),
       decide (to_.PubKey.A.X = toUpdated.PubKey.A.X),
       decide (to_.PubKey.A.Y = toUpdated.PubKey.A.Y)] := by
  simp [verifyUpdated, API.AssertIsEqual, API.AssertIsLessOrEqual, API.assert, API.Add,
    API.Sub]

theorem verifySignature_assertions (G : Gadgets) (api : API) (t : Transfer) :
    (verifySignature G api t NewMiMC).1.assertions =
      api.assertions ++ [signatureHolds G t] := by
  simp only [verifySignature, signatureHolds]
  split <;> simp [API.assert]

/-- The verdict as a conjunction: what `accepts` amounts to once `Define` is
unfolded. -/
theorem accepts_eq (G : Gadgets) (c : Circuit) :
    accepts G c =
      (c.wellShaped &&
       updatedHolds c.SenderAccountBefore c.ReciverAccountBefore c.SenderAccountAfter
         c.ReciverAccountAfter c.Transfer.Amount &&
       signatureHolds G c.Transfer &&
       decide (c.RootHashBefore = c.MerkleProofReceiverBefore.RootHash) &&
       decide (c.RootHashBefore = c.MerkleProofSenderBefore.RootHash) &&
       decide (c.RootHashAfter = c.MerkleProofReceiverAfter.RootHash) &&
       decide (c.RootHashAfter = c.MerkleProofSenderAfter.RootHash) &&
       decide (c.ReciverAccountBefore.Index = c.IndexReceiver) &&
       decide (c.SenderAccountBefore.Index = c.IndexSender) &&
       decide (c.SenderAccountAfter.Index = c.IndexSender) &&
       proofHolds G.encryptFunc c.MerkleProofReceiverBefore c.IndexReceiver &&
       proofHolds G.encryptFunc c.MerkleProofSenderBefore c.IndexSender &&
       proofHolds G.encryptFunc c.MerkleProofReceiverAfter c.IndexReceiver &&
       proofHolds G.encryptFunc c.MerkleProofSenderAfter c.IndexSender) := by
  obtain ⟨sb, rb, sa, ra, t, ⟨r1, p1⟩, ⟨r3, p3⟩, ⟨r2, p2⟩, ⟨r4, p4⟩, ir, is_, hb, ha⟩ := c
  rcases p1 with _ | ⟨d1, _ | ⟨s1, t1⟩⟩
  · simp [accepts, Circuit.Define, MerkleProof.VerifyProof, proofHolds]
  · simp [accepts, Circuit.wellShaped, depth]
  rcases p2 with _ | ⟨d2, _ | ⟨s2, t2⟩⟩
  · simp [accepts, Circuit.Define, MerkleProof.VerifyProof, proofHolds, VerifyProof_cons]
  · simp [accepts, Circuit.wellShaped, depth]
  rcases p3 with _ | ⟨d3, _ | ⟨s3, t3⟩⟩
  · simp [accepts, Circuit.Define, MerkleProof.VerifyProof, proofHolds, VerifyProof_cons]
  · simp [accepts, Circuit.wellShaped, depth]
  rcases p4 with _ | ⟨d4, _ | ⟨s4, t4⟩⟩
  · simp [accepts, Circuit.Define, MerkleProof.VerifyProof, proofHolds, VerifyProof_cons]
  · simp [accepts, Circuit.wellShaped, depth]
  simp [accepts, Circuit.Define, proofHolds, VerifyProof_cons, API.satisfied,
    verifyUpdated_assertions, verifySignature_assertions, API.AssertIsEqual, API.assert,
    updatedHolds, Bool.and_assoc]

theorem accepts_updatedHolds (G : Gadgets) (c : Circuit) (h : accepts G c = true) :
    updatedHolds c.SenderAccountBefore c.ReciverAccountBefore c.SenderAccountAfter
      c.ReciverAccountAfter c.Transfer.Amount = true := by
  rw [accepts_eq] at h
  simp only [Bool.and_eq_true] at h
  exact h.1.1.1.1.1.1.1.1.1.1.1.1.2

theorem accepts_signatureHolds (G : Gadgets) (c : Circuit) (h : accepts G c = true) :
    signatureHolds G c.Transfer = true := by
  rw [accepts_eq] at h
  simp only [Bool.and_eq_true] at h
  exact h.1.1.1.1.1.1.1.1.1.1.1.2

theorem updatedHolds_iff (from_ to_ fromUpdated toUpdated : Account) (amount : Variable) :
    updatedHolds from_ to_ fromUpdated toUpdated amount = true ↔
      from_.Nonce + 1 = fromUpdated.Nonce ∧
      amount.val ≤ from_.Balance.val ∧
      from_.Balance - amount = fromUpdated.Balance ∧
      to_.Balance + amount = toUpdated.Balance ∧
      from_.PubKey.A.X = fromUpdated.PubKey.A.X ∧
      from_.PubKey.A.Y = fromUpdated.PubKey.A.Y ∧
      to_.PubKey.A.X = toUpdated.PubKey.A.X ∧
      to_.PubKey.A.Y = toUpdated.PubKey.A.Y := by
  simp [updatedHolds, and_assoc]

/-- One absorption step of the stub hasher doubles the state and the input. -/
theorem stub_hash_one (x : Variable) : mimcHash stubEnc [x] = 2 * x := by
  simp only [mimcHash, stubEnc, List.foldl]
  ring

/-- The stub hash of two children, as it is used at the nodes of the tree. -/
theorem stub_hash_two (a b : Variable) : mimcHash stubEnc [a, b] = 4 * a + 2 * b := by
  simp only [mimcHash, stubEnc, List.foldl]
  ring

/-- The stub hash of the contents of an account. -/
theorem stub_accountHash (a : Account) :
    accountHash stubEnc a =
      16 * a.Nonce + 8 * a.Balance + 4 * a.PubKey.A.X + 2 * a.PubKey.A.Y := by
  simp only [accountHash, mimcHash, stubEnc, List.foldl]
  ring

/-- The sample witness is accepted under the stub gadgets. -/
theorem sampleWitness_accepted : accepts stubGadgets sampleWitness = true := by
  decide

/-! ## Account arithmetic -/

/-- C1. No negative balances: a witness whose transfer amount exceeds the balance
of the sender before the transfer, the two compared as unsigned integers, is
rejected, whatever the gadgets and all the other fields of the witness are. -/
theorem no_negative_balances (G : Gadgets) (c : Circuit)
    (h : c.SenderAccountBefore.Balance.val < c.Transfer.Amount.val) :
    accepts G c = false := by
  cases hacc : accepts G c with
  | false => rfl
  | true =>
    have hu := (updatedHolds_iff _ _ _ _ _).1 (accepts_updatedHolds G c hacc)
    exact absurd hu.2.1 (Nat.not_le.2 h)

/-- Instance of C1 at `overdrawnWitness`: amount 101 against a balance of 100. -/
theorem no_negative_balances_witness :
    overdrawnWitness.SenderAccountBefore.Balance.val < overdrawnWitness.Transfer.Amount.val ∧
    accepts stubGadgets overdrawnWitness = false :=
  ⟨by decide, no_negative_balances stubGadgets overdrawnWitness (by decide)⟩

/-- C2. Sender balance update without underflow: in an accepted witness the
subtraction `api.Sub(from.Balance, amount)` does not wrap, the balance of the
sender after the transfer is the difference of unsigned integers, and adding the
amount back gives the balance before, over the naturals. -/
theorem sender_balance_no_underflow (G : Gadgets) (c : Circuit)
    (h : accepts G c = true) :
    (API.Sub { assertions := [] } c.SenderAccountBefore.Balance c.Transfer.Amount).val =
        c.SenderAccountBefore.Balance.val - c.Transfer.Amount.val ∧
    c.SenderAccountAfter.Balance.val =
        c.SenderAccountBefore.Balance.val - c.Transfer.Amount.val ∧
    c.SenderAccountAfter.Balance.val + c.Transfer.Amount.val =
        c.SenderAccountBefore.Balance.val := by
  have hu := (updatedHolds_iff _ _ _ _ _).1 (accepts_updatedHolds G c h)
  obtain ⟨-, hle, hsub, -⟩ := hu
  have hv : (c.SenderAccountBefore.Balance - c.Transfer.Amount).val =
      c.SenderAccountBefore.Balance.val - c.Transfer.Amount.val :=
    Fin.coe_sub_iff_le.2 hle
  refine ⟨hv, ?_, ?_⟩
  · rw [← hsub]; exact hv
  · rw [← hsub, hv]; omega

/-- Instance of C2 at the sample witness: 60 + 40 = 100. -/
theorem sender_balance_no_underflow_witness :
    accepts stubGadgets sampleWitness = true ∧
    sampleWitness.SenderAccountAfter.Balance.val + sampleWitness.Transfer.Amount.val =
      sampleWitness.SenderAccountBefore.Balance.val :=
  ⟨by decide, (sender_balance_no_underflow stubGadgets sampleWitness (by decide)).2.2⟩

/-- C3 (counterexample). The receiver holds `fieldModulus - 1`, the amount is 40:
the sum reaches the modulus, and the witness is accepted with the balance after
the transfer wrapped around to 39, which is not the sum of unsigned integers. -/
theorem receiver_overflow_accepted :
    accepts stubGadgets overflowWitness = true ∧
    fieldModulus ≤ overflowWitness.ReciverAccountBefore.Balance.val +
      overflowWitness.Transfer.Amount.val ∧
    overflowWitness.ReciverAccountAfter.Balance.val ≠
      overflowWitness.ReciverAccountBefore.Balance.val +
        overflowWitness.Transfer.Amount.val := by
  decide

/-- C3 (amended). Receiver balance update: in an accepted witness the balance of
the receiver after the transfer is the sum of the balance before and the amount
reduced modulo the field modulus; it is the sum of unsigned integers whenever
that sum stays below the modulus. -/
theorem receiver_balance_modular (G : Gadgets) (c : Circuit)
    (h : accepts G c = true) :
    c.ReciverAccountAfter.Balance.val =
        (c.ReciverAccountBefore.Balance.val + c.Transfer.Amount.val) % fieldModulus ∧
    (c.ReciverAccountBefore.Balance.val + c.Transfer.Amount.val < fieldModulus →
      c.ReciverAccountAfter.Balance.val =
        c.ReciverAccountBefore.Balance.val + c.Transfer.Amount.val) := by
  have hu := (updatedHolds_iff _ _ _ _ _).1 (accepts_updatedHolds G c h)
  obtain ⟨-, -, -, hadd, -⟩ := hu
  have hv : c.ReciverAccountAfter.Balance.val =
      (c.ReciverAccountBefore.Balance.val + c.Transfer.Amount.val) % fieldModulus := by
    rw [← hadd]; exact Fin.val_add _ _
  exact ⟨hv, fun hlt => by rw [hv, Nat.mod_eq_of_lt hlt]⟩

/-- Instance of the amended C3 at the sample witness: 50 = (10 + 40) mod the modulus. -/
theorem receiver_balance_modular_witness :
    accepts stubGadgets sampleWitness = true ∧
    sampleWitness.ReciverAccountAfter.Balance.val =
      (sampleWitness.ReciverAccountBefore.Balance.val +
        sampleWitness.Transfer.Amount.val) % fieldModulus :=
  ⟨by decide, (receiver_balance_modular stubGadgets sampleWitness (by decide)).1⟩

/-- C4. Conservation: in an accepted witness the balances before the transfer and
the balances after it have the same sum in the field of the circuit, that is
modulo the BN254 scalar field modulus. -/
theorem conservation (G : Gadgets) (c : Circuit) (h : accepts G c = true) :
    c.SenderAccountBefore.Balance + c.ReciverAccountBefore.Balance =
        c.SenderAccountAfter.Balance + c.ReciverAccountAfter.Balance ∧
    (c.SenderAccountBefore.Balance.val + c.ReciverAccountBefore.Balance.val) % fieldModulus =
        (c.SenderAccountAfter.Balance.val + c.ReciverAccountAfter.Balance.val) %
          fieldModulus := by
  have hu := (updatedHolds_iff _ _ _ _ _).1 (accepts_updatedHolds G c h)
  obtain ⟨-, -, hsub, hadd, -⟩ := hu
  have hf : c.SenderAccountBefore.Balance + c.ReciverAccountBefore.Balance =
      c.SenderAccountAfter.Balance + c.ReciverAccountAfter.Balance := by
    rw [← hsub, ← hadd]; abel
  refine ⟨hf, ?_⟩
  have hv := congrArg Fin.val hf
  rwa [Fin.val_add, Fin.val_add] at hv

/-- Instance of C4 at the sample witness: 100 + 10 = 60 + 50. -/
theorem conservation_witness :
    accepts stubGadgets sampleWitness = true ∧
    sampleWitness.SenderAccountBefore.Balance + sampleWitness.ReciverAccountBefore.Balance =
      sampleWitness.SenderAccountAfter.Balance + sampleWitness.ReciverAccountAfter.Balance :=
  ⟨by decide, (conservation stubGadgets sampleWitness (by decide)).1⟩

/-- C5 (counterexample). The nonce of the sender is `fieldModulus - 1` before the
transfer and 0 after it: the successor of unsigned integers is the modulus, not
0, and the witness is accepted. -/
theorem nonce_wrap_accepted :
    accepts stubGadgets nonceWrapWitness = true ∧
    nonceWrapWitness.SenderAccountBefore.Nonce.val + 1 = fieldModulus ∧
    nonceWrapWitness.SenderAccountAfter.Nonce.val = 0 ∧
    nonceWrapWitness.SenderAccountAfter.Nonce.val ≠
      nonceWrapWitness.SenderAccountBefore.Nonce.val + 1 := by
  decide

/-- C5 (amended). Monotonic nonce: in an accepted witness the nonce of the sender
after the transfer is the nonce before plus one reduced modulo the field modulus,
which is the successor of unsigned integers whenever that successor is below the
modulus; a witness with any other nonce after the transfer, the unchanged nonce
included, is rejected. -/
theorem monotonic_nonce (G : Gadgets) (c : Circuit) :
    (accepts G c = true →
      c.SenderAccountAfter.Nonce.val =
        (c.SenderAccountBefore.Nonce.val + 1) % fieldModulus) ∧
    (c.SenderAccountAfter.Nonce.val ≠
        (c.SenderAccountBefore.Nonce.val + 1) % fieldModulus →
      accepts G c = false) ∧
    (accepts G c = true → c.SenderAccountBefore.Nonce.val + 1 < fieldModulus →
      c.SenderAccountAfter.Nonce.val = c.SenderAccountBefore.Nonce.val + 1) := by
  have h1 : ((1 : Variable) : Nat) = 1 := by decide
  have key : accepts G c = true →
      c.SenderAccountAfter.Nonce.val =
        (c.SenderAccountBefore.Nonce.val + 1) % fieldModulus := by
    intro h
    have hn := ((updatedHolds_iff _ _ _ _ _).1 (accepts_updatedHolds G c h)).1
    rw [← hn, Fin.val_add, h1]
  refine ⟨key, ?_, ?_⟩
  · intro hne
    cases hacc : accepts G c with
    | false => rfl
    | true => exact absurd (key hacc) hne
  · intro h hlt
    rw [key h, Nat.mod_eq_of_lt hlt]

/-- Instance of the amended C5 at the sample witness, nonce 3 to 4, and at the
sample witness with the sender account left as it was, nonce 3 to 3. -/
theorem monotonic_nonce_witness :
    accepts stubGadgets sampleWitness = true ∧
    sampleWitness.SenderAccountAfter.Nonce.val =
      sampleWitness.SenderAccountBefore.Nonce.val + 1 ∧
    accepts stubGadgets { sampleWitness with
      SenderAccountAfter := sampleWitness.SenderAccountBefore } = false :=
  ⟨by decide, (monotonic_nonce stubGadgets sampleWitness).2.2 (by decide) (by decide),
    (monotonic_nonce stubGadgets { sampleWitness with
      SenderAccountAfter := sampleWitness.SenderAccountBefore }).2.1 (by decide)⟩

/-! ## Signature -/

theorem transferDigest_eq (enc : Variable → Variable → Variable) (t : Transfer)
    (hFunc : MiMC) :
    transferDigest enc t hFunc =
      (mimcHash enc (transferFields t),
       { h := mimcHash enc (transferFields t), data := [] }) := by
  simp [transferDigest, transferFields, MiMC.Reset, MiMC.Write, MiMC.Sum, mimcHash]

theorem signatureHolds_eq (G : Gadgets) (t : Transfer) :
    signatureHolds G t =
      (G.Verify t.Signature (mimcHash G.encryptFunc (transferFields t)) t.SenderPubKey
        { h := mimcHash G.encryptFunc (transferFields t), data := [] }).1 := by
  simp [signatureHolds, transferDigest_eq]

/-- C6 (counterexample). The transfer of `foreignSignerWitness` is issued and
signed under a key that differs, in both coordinates, from the key of the
account that is debited, and the witness is accepted. -/
theorem foreign_signer_accepted :
    accepts stubGadgets foreignSignerWitness = true ∧
    foreignSignerWitness.Transfer.SenderPubKey.A.X ≠
      foreignSignerWitness.SenderAccountBefore.PubKey.A.X ∧
    foreignSignerWitness.Transfer.SenderPubKey.A.Y ≠
      foreignSignerWitness.SenderAccountBefore.PubKey.A.Y := by
  decide

/-- C6 (amended). In an accepted witness the signature verifies for the digest of
the transfer under the key `Transfer.SenderPubKey`, and the key of the sender
account is left unchanged by the transfer; no assertion compares the two keys:
the witness stays accepted when the key of the sender account is replaced, before
and after the transfer, by any key at all. -/
theorem signature_checked_under_transfer_key (G : Gadgets) (c : Circuit)
    (h : accepts G c = true) :
    (G.Verify c.Transfer.Signature (mimcHash G.encryptFunc (transferFields c.Transfer))
      c.Transfer.SenderPubKey
      { h := mimcHash G.encryptFunc (transferFields c.Transfer), data := [] }).1 = true ∧
    c.SenderAccountBefore.PubKey = c.SenderAccountAfter.PubKey ∧
    ∀ k : PublicKey,
      accepts G { c with
        SenderAccountBefore := { c.SenderAccountBefore with PubKey := k },
        SenderAccountAfter := { c.SenderAccountAfter with PubKey := k } } = true := by
  have hs := accepts_signatureHolds G c h
  rw [signatureHolds_eq] at hs
  have hu := (updatedHolds_iff _ _ _ _ _).1 (accepts_updatedHolds G c h)
  refine ⟨hs, ?_, ?_⟩
  · obtain ⟨-, -, -, -, hx, hy, -⟩ := hu
    rcases hb : c.SenderAccountBefore.PubKey with ⟨⟨x1, y1⟩⟩
    rcases ha : c.SenderAccountAfter.PubKey with ⟨⟨x2, y2⟩⟩
    simp only [hb, ha] at hx hy
    subst hx hy
    rfl
  · intro k
    rw [accepts_eq] at h ⊢
    simp only [Bool.and_eq_true, updatedHolds, decide_eq_true_eq, Circuit.wellShaped] at h ⊢
    simp only [and_assoc] at h ⊢
    obtain ⟨h1, h2, h3, h4, h5, h6, h7, h8, -, -, h⟩ := h
    exact ⟨h1, h2, h3, h4, h5, h6, h7, h8, trivial, trivial, h⟩

/-- Instance of the amended C6 at `foreignSignerWitness`, the key of the sender account replaced by the key of the receiver. -/
theorem signature_checked_under_transfer_key_witness :
    accepts stubGadgets foreignSignerWitness = true ∧
    accepts stubGadgets { foreignSignerWitness with
      SenderAccountBefore := { foreignSignerWitness.SenderAccountBefore with
        PubKey := receiverKey },
      SenderAccountAfter := { foreignSignerWitness.SenderAccountAfter with
        PubKey := receiverKey } } = true :=
  ⟨by decide,
   (signature_checked_under_transfer_key stubGadgets foreignSignerWitness (by decide)).2.2
     receiverKey⟩

/-! ## Merkle leaves and indexes -/

/-- C7 (counterexample). In `unboundLeafWitness` the sender claims the balance
1000 while the leaf of its proof before the transfer, 916, is the hash of an
account with balance 100: neither the leaf nor its hash 1832 is the hash 8116
of the account contents, and the witness is accepted. -/
theorem unbound_leaf_accepted :
    accepts stubGadgets unboundLeafWitness = true ∧
    unboundLeafWitness.MerkleProofSenderBefore.Path.head? = some 916 ∧
    mimcHash stubEnc [916] = 1832 ∧
    accountHash stubEnc unboundLeafWitness.SenderAccountBefore = 8116 ∧
    unboundLeafWitness.MerkleProofSenderBefore.Path.head? ≠
      some (accountHash stubEnc unboundLeafWitness.SenderAccountBefore) := by
  decide

/-- C7 (amended). In an accepted witness each of the four proofs verifies from its
own leaf `Path[0]` at the index input of its side; the leaf is tied to the
account by that position only.  No assertion compares a leaf with the contents of
the account: the witness stays accepted when the four accounts are replaced by
any accounts that pass the checks of `verifyUpdated` and the index assertions. -/
theorem leaf_bound_by_path_only (G : Gadgets) (c : Circuit) (sb rb sa ra : Account)
    (h : accepts G c = true)
    (hu : updatedHolds sb rb sa ra c.Transfer.Amount = true)
    (hrb : rb.Index = c.IndexReceiver) (hsb : sb.Index = c.IndexSender)
    (hsa : sa.Index = c.IndexSender) :
    (proofHolds G.encryptFunc c.MerkleProofReceiverBefore c.IndexReceiver = true ∧
     proofHolds G.encryptFunc c.MerkleProofSenderBefore c.IndexSender = true ∧
     proofHolds G.encryptFunc c.MerkleProofReceiverAfter c.IndexReceiver = true ∧
     proofHolds G.encryptFunc c.MerkleProofSenderAfter c.IndexSender = true) ∧
    accepts G { c with
      SenderAccountBefore := sb, ReciverAccountBefore := rb,
      SenderAccountAfter := sa, ReciverAccountAfter := ra } = true := by
  rw [accepts_eq] at h ⊢
  simp only [Bool.and_eq_true, decide_eq_true_eq, Circuit.wellShaped, and_assoc] at h ⊢
  obtain ⟨h1, h2, h3, h4, -, hS, r1, r2, r3, r4, -, -, -, p1, p2, p3, p4⟩ := h
  exact ⟨p1, p2, p3, p4, h1, h2, h3, h4, hu, hS, r1, r2, r3, r4, hrb, hsb, hsa,
    p1, p2, p3, p4⟩

/-- Instance of the amended C7: the accounts of `unboundLeafWitness` over the proofs of the sample witness. -/
theorem leaf_bound_by_path_only_witness :
    accepts stubGadgets sampleWitness = true ∧
    accepts stubGadgets { sampleWitness with
      SenderAccountBefore := unboundLeafWitness.SenderAccountBefore,
      ReciverAccountBefore := unboundLeafWitness.ReciverAccountBefore,
      SenderAccountAfter := unboundLeafWitness.SenderAccountAfter,
      ReciverAccountAfter := unboundLeafWitness.ReciverAccountAfter } = true :=
  ⟨by decide,
   (leaf_bound_by_path_only stubGadgets sampleWitness
      unboundLeafWitness.SenderAccountBefore unboundLeafWitness.ReciverAccountBefore
      unboundLeafWitness.SenderAccountAfter unboundLeafWitness.ReciverAccountAfter
      (by decide) (by decide) (by decide) (by decide) (by decide)).2⟩

/-- C8 (failing input). In `receiverAfterIndexWitness` the account of the receiver
after the transfer carries index 9 while `IndexReceiver` is 5, and the witness
is accepted: the second index assertion of `Define` repeats the one on
`ReciverAccountBefore` and `ReciverAccountAfter.Index` is never asserted. -/
theorem receiverAfter_index_unchecked :
    accepts stubGadgets receiverAfterIndexWitness = true ∧
    receiverAfterIndexWitness.IndexReceiver = 5 ∧
    receiverAfterIndexWitness.ReciverAccountBefore.Index = 5 ∧
    receiverAfterIndexWitness.ReciverAccountAfter.Index = 9 ∧
    receiverAfterIndexWitness.ReciverAccountAfter.Index ≠
      receiverAfterIndexWitness.IndexReceiver := by
  decide

/-- The three index fields that `Define` does assert, and the freedom of the
fourth: an accepted witness stays accepted whatever index is put in the account
of the receiver after the transfer, for all gadgets. -/
theorem index_assertions (G : Gadgets) (c : Circuit) (h : accepts G c = true) :
    c.ReciverAccountBefore.Index = c.IndexReceiver ∧
    c.SenderAccountBefore.Index = c.IndexSender ∧
    c.SenderAccountAfter.Index = c.IndexSender ∧
    ∀ v : Variable,
      accepts G { c with
        ReciverAccountAfter := { c.ReciverAccountAfter with Index := v } } = true := by
  rw [accepts_eq] at h
  refine ⟨?_, ?_, ?_, ?_⟩
  · simp only [Bool.and_eq_true, decide_eq_true_eq] at h
    exact h.1.1.1.1.1.1.2
  · simp only [Bool.and_eq_true, decide_eq_true_eq] at h
    exact h.1.1.1.1.1.2
  · simp only [Bool.and_eq_true, decide_eq_true_eq] at h
    exact h.1.1.1.1.2
  · intro v
    rw [accepts_eq]
    simpa [updatedHolds, Circuit.wellShaped] using h

/-! ## Outcome of the signature check and composition of the digest -/

/-- C9 (failing input). The signature of the sample witness fails the
verification of the scheme for the digest 1872 of the transfer and the key of the
transfer: the challenge hashed from the initial state is 4136 and
`5 + 4136 * 11 = 45501` is not the response 704445.  The witness is accepted all
the same, because `verifySignature` hands `eddsa.Verify` the hasher that still
holds the digest, and from that state the challenge is 64040. -/
theorem stale_hasher_accepts_invalid_signature :
    schemeVerifies stubGadgets sampleWitness.Transfer.Signature
      (mimcHash stubEnc (transferFields sampleWitness.Transfer))
      sampleWitness.Transfer.SenderPubKey = false ∧
    (stubVerify sampleWitness.Transfer.Signature
      (mimcHash stubEnc (transferFields sampleWitness.Transfer))
      sampleWitness.Transfer.SenderPubKey
      (transferDigest stubEnc sampleWitness.Transfer NewMiMC).2).1 = true ∧
    (transferDigest stubEnc sampleWitness.Transfer NewMiMC).2 ≠ NewMiMC ∧
    accepts stubGadgets sampleWitness = true := by
  decide

/-- C10. Digest composition from a fresh state: whatever hasher `verifySignature`
is handed, the message it passes to `eddsa.Verify` is the hash, started from the
initial state of the hasher, of the six fields nonce, amount, sender key X and
Y, receiver key X and Y in this order, and the check is made under
`Transfer.SenderPubKey`; nothing written to the hasher before the call enters. -/
theorem digest_from_fresh_state (G : Gadgets) (api : API) (t : Transfer) (hFunc : MiMC) :
    (transferDigest G.encryptFunc t hFunc).1 =
      ((NewMiMC.Write [t.Nonce, t.Amount, t.SenderPubKey.A.X, t.SenderPubKey.A.Y,
        t.ReceiverPubKey.A.X, t.ReceiverPubKey.A.Y]).Sum G.encryptFunc).1 ∧
    (transferDigest G.encryptFunc t hFunc).1 =
      mimcHash G.encryptFunc [t.Nonce, t.Amount, t.SenderPubKey.A.X, t.SenderPubKey.A.Y,
        t.ReceiverPubKey.A.X, t.ReceiverPubKey.A.Y] ∧
    (verifySignature G api t hFunc).1.assertions =
      api.assertions ++
        [(G.Verify t.Signature
            (mimcHash G.encryptFunc [t.Nonce, t.Amount, t.SenderPubKey.A.X,
              t.SenderPubKey.A.Y, t.ReceiverPubKey.A.X, t.ReceiverPubKey.A.Y])
            t.SenderPubKey
            { h := mimcHash G.encryptFunc [t.Nonce, t.Amount, t.SenderPubKey.A.X,
                t.SenderPubKey.A.Y, t.ReceiverPubKey.A.X, t.ReceiverPubKey.A.Y],
              data := [] }).1] := by
  refine ⟨?_, ?_, ?_⟩
  · simp [transferDigest, NewMiMC, MiMC.Reset, MiMC.Write, MiMC.Sum]
  · rw [transferDigest_eq]; rfl
  · simp only [verifySignature, transferDigest_eq, transferFields]
    split <;> simp [API.assert]

/-! ## Roots, keys and the nonce of the receiver -/

/-- The verdict as a conjunction of propositions. -/
theorem accepts_iff (G : Gadgets) (c : Circuit) :
    accepts G c = true ↔
      c.wellShaped = true ∧
      updatedHolds c.SenderAccountBefore c.ReciverAccountBefore c.SenderAccountAfter
        c.ReciverAccountAfter c.Transfer.Amount = true ∧
      signatureHolds G c.Transfer = true ∧
      c.RootHashBefore = c.MerkleProofReceiverBefore.RootHash ∧
      c.RootHashBefore = c.MerkleProofSenderBefore.RootHash ∧
      c.RootHashAfter = c.MerkleProofReceiverAfter.RootHash ∧
      c.RootHashAfter = c.MerkleProofSenderAfter.RootHash ∧
      c.ReciverAccountBefore.Index = c.IndexReceiver ∧
      c.SenderAccountBefore.Index = c.IndexSender ∧
      c.SenderAccountAfter.Index = c.IndexSender ∧
      proofHolds G.encryptFunc c.MerkleProofReceiverBefore c.IndexReceiver = true ∧
      proofHolds G.encryptFunc c.MerkleProofSenderBefore c.IndexSender = true ∧
      proofHolds G.encryptFunc c.MerkleProofReceiverAfter c.IndexReceiver = true ∧
      proofHolds G.encryptFunc c.MerkleProofSenderAfter c.IndexSender = true := by
  rw [accepts_eq]
  simp only [Bool.and_eq_true, decide_eq_true_eq, and_assoc]

theorem rejects_of_not (G : Gadgets) (c : Circuit) (P : Prop)
    (h : accepts G c = true → P) (hn : ¬ P) : accepts G c = false := by
  cases hacc : accepts G c with
  | false => rfl
  | true => exact absurd (h hacc) hn

/-- C12. Root consistency: in an accepted witness the two proofs before the
transfer carry the same root, which is `RootHashBefore`, and the two proofs after
it carry the same root, which is `RootHashAfter`; a witness whose two proofs
before the transfer carry different roots is rejected, whether or not each proof
verifies against its own root. -/
theorem root_consistency (G : Gadgets) (c : Circuit) :
    (accepts G c = true →
      c.MerkleProofSenderBefore.RootHash = c.MerkleProofReceiverBefore.RootHash ∧
      c.MerkleProofReceiverBefore.RootHash = c.RootHashBefore ∧
      c.MerkleProofSenderAfter.RootHash = c.MerkleProofReceiverAfter.RootHash ∧
      c.MerkleProofReceiverAfter.RootHash = c.RootHashAfter) ∧
    (c.MerkleProofSenderBefore.RootHash ≠ c.MerkleProofReceiverBefore.RootHash →
      accepts G c = false) := by
  have key : accepts G c = true →
      c.MerkleProofSenderBefore.RootHash = c.MerkleProofReceiverBefore.RootHash ∧
      c.MerkleProofReceiverBefore.RootHash = c.RootHashBefore ∧
      c.MerkleProofSenderAfter.RootHash = c.MerkleProofReceiverAfter.RootHash ∧
      c.MerkleProofReceiverAfter.RootHash = c.RootHashAfter := by
    intro h
    obtain ⟨-, -, -, r1, r2, r3, r4, -⟩ := (accepts_iff G c).1 h
    exact ⟨r2.symm.trans r1, r1.symm, r4.symm.trans r3, r3.symm⟩
  exact ⟨key, fun hne => rejects_of_not G c _ (fun h => (key h).1) hne⟩

/-- Instance of C12: the sample witness, and `splitRootsWitness`, whose two proofs
before the transfer each verify against their own root. -/
theorem root_consistency_witness :
    (accepts stubGadgets sampleWitness = true ∧
      sampleWitness.MerkleProofSenderBefore.RootHash = sampleWitness.RootHashBefore) ∧
    (proofHolds stubEnc splitRootsWitness.MerkleProofSenderBefore
        splitRootsWitness.IndexSender = true ∧
      proofHolds stubEnc splitRootsWitness.MerkleProofReceiverBefore
        splitRootsWitness.IndexReceiver = true ∧
      accepts stubGadgets splitRootsWitness = false) :=
  ⟨⟨by decide,
    (((root_consistency stubGadgets sampleWitness).1 (by decide)).1).trans
      ((root_consistency stubGadgets sampleWitness).1 (by decide)).2.1⟩,
   by decide, by decide, (root_consistency stubGadgets splitRootsWitness).2 (by decide)⟩

/-- C13. Key immutability: in an accepted witness the key of the sender and the
key of the receiver are the same before and after the transfer, in both
coordinates; a witness that changes a coordinate of either key is rejected. -/
theorem key_immutability (G : Gadgets) (c : Circuit) :
    (accepts G c = true →
      c.SenderAccountBefore.PubKey.A.X = c.SenderAccountAfter.PubKey.A.X ∧
      c.SenderAccountBefore.PubKey.A.Y = c.SenderAccountAfter.PubKey.A.Y ∧
      c.ReciverAccountBefore.PubKey.A.X = c.ReciverAccountAfter.PubKey.A.X ∧
      c.ReciverAccountBefore.PubKey.A.Y = c.ReciverAccountAfter.PubKey.A.Y) ∧
    (c.SenderAccountBefore.PubKey.A.X ≠ c.SenderAccountAfter.PubKey.A.X ∨
      c.SenderAccountBefore.PubKey.A.Y ≠ c.SenderAccountAfter.PubKey.A.Y ∨
      c.ReciverAccountBefore.PubKey.A.X ≠ c.ReciverAccountAfter.PubKey.A.X ∨
      c.ReciverAccountBefore.PubKey.A.Y ≠ c.ReciverAccountAfter.PubKey.A.Y →
      accepts G c = false) := by
  have key : accepts G c = true →
      c.SenderAccountBefore.PubKey.A.X = c.SenderAccountAfter.PubKey.A.X ∧
      c.SenderAccountBefore.PubKey.A.Y = c.SenderAccountAfter.PubKey.A.Y ∧
      c.ReciverAccountBefore.PubKey.A.X = c.ReciverAccountAfter.PubKey.A.X ∧
      c.ReciverAccountBefore.PubKey.A.Y = c.ReciverAccountAfter.PubKey.A.Y := fun h =>
    ((updatedHolds_iff _ _ _ _ _).1 (accepts_updatedHolds G c h)).2.2.2.2
  refine ⟨key, fun hne => rejects_of_not G c _ key ?_⟩
  rintro ⟨h1, h2, h3, h4⟩
  rcases hne with h | h | h | h
  · exact h h1
  · exact h h2
  · exact h h3
  · exact h h4

/-- Instance of C13: the sample witness keeps both keys, `rotatedKeyWitness`
changes the `Y` coordinate of the receiver's key and is rejected. -/
theorem key_immutability_witness :
    (accepts stubGadgets sampleWitness = true ∧
      sampleWitness.ReciverAccountBefore.PubKey.A.Y =
        sampleWitness.ReciverAccountAfter.PubKey.A.Y) ∧
    accepts stubGadgets rotatedKeyWitness = false :=
  ⟨⟨by decide, ((key_immutability stubGadgets sampleWitness).1 (by decide)).2.2.2⟩,
   (key_immutability stubGadgets rotatedKeyWitness).2 (by decide)⟩

/-- C19. The verdict ignores the nonce of the receiver: two witnesses that differ
only in the nonce of the receiver before the transfer, after it, or both, get
the same verdict.  In particular the sample witness is still accepted when the
transfer moves the nonce of the receiver from 7 to 99. -/
theorem receiver_nonce_ignored (G : Gadgets) (c : Circuit) (n m : Variable) :
    accepts G { c with
        ReciverAccountBefore := { c.ReciverAccountBefore with Nonce := n },
        ReciverAccountAfter := { c.ReciverAccountAfter with Nonce := m } } =
      accepts G c ∧
    accepts stubGadgets { sampleWitness with
        ReciverAccountAfter := { sampleWitness.ReciverAccountAfter with Nonce := 99 } } =
      true := by
  refine ⟨?_, by decide⟩
  rw [accepts_eq, accepts_eq]
  simp [updatedHolds, Circuit.wellShaped]

/-! ## Inclusion -/

theorem zero_ne_one_variable : (0 : Variable) ≠ 1 := by decide

theorem climb_eq_specWalk (enc : Variable → Variable → Variable) (index : Variable)
    (path : List Variable) (k : Nat) (sum : Variable) :
    climb enc ((List.range' k path.length).map
        (fun i => if index.val.testBit i then (1 : Variable) else 0)) path sum =
      specWalk (fun a b => mimcHash enc [a, b]) index.val k path sum := by
  induction path generalizing k sum with
  | nil => simp [climb, specWalk]
  | cons p path ih =>
    simp only [List.length_cons, List.range'_succ, List.map_cons, climb, specWalk]
    rw [ih]
    by_cases hb : index.val.testBit k
    · simp only [if_pos hb, if_true]
    · simp only [if_neg hb, if_neg zero_ne_one_variable]

/-- What `proofHolds` says, with the climb written as the walk of the
specification over the entries of the path after the first. -/
theorem proofHolds_iff (enc : Variable → Variable → Variable) (mp : MerkleProof)
    (index : Variable) :
    proofHolds enc mp index = true ↔
      ∃ data siblings, mp.Path = data :: siblings ∧
        index.val < 2 ^ siblings.length ∧
        specWalk (fun a b => mimcHash enc [a, b]) index.val 0 siblings
          (mimcHash enc [data]) = mp.RootHash := by
  unfold proofHolds
  cases hp : mp.Path with
  | nil => simp
  | cons data siblings =>
    simp only [Bool.and_eq_true, decide_eq_true_eq, List.cons.injEq]
    rw [indexBits, List.range_eq_range', climb_eq_specWalk]
    constructor
    · intro h; exact ⟨data, siblings, ⟨rfl, rfl⟩, h⟩
    · rintro ⟨d, s, ⟨rfl, rfl⟩, h⟩; exact h

theorem verifiesAt_of_proofHolds (enc : Variable → Variable → Variable) (mp : MerkleProof)
    (index : Variable) (hlen : (mp.Path.length == depth) = true)
    (h : proofHolds enc mp index = true) : verifiesAt enc mp index := by
  obtain ⟨data, siblings, hp, -, hw⟩ := (proofHolds_iff enc mp index).1 h
  refine ⟨data, siblings, hp, ?_, hw⟩
  have := beq_iff_eq.1 hlen
  rw [hp] at this
  simpa using this

/-- C14 (counterexample). The sample witness is accepted, and the proof of its
sender before the transfer does not verify as the claim states it.  The path
elements after the leaf 916 are four, not `depth = 5`, and their walk from the
leaf itself ends at 158208, not at the root 275456; the walk over all five
entries of the path from the leaf does not end at the root either; the root is
reached in four combinations from the hash 1832 of the leaf. -/
theorem inclusion_not_as_stated :
    accepts stubGadgets sampleWitness = true ∧
    sampleWitness.MerkleProofSenderBefore.Path = [916, 0, 0, 5120, 0] ∧
    ¬ specVerifies stubEnc 916 [0, 0, 5120, 0] sampleWitness.IndexSender
        sampleWitness.MerkleProofSenderBefore.RootHash ∧
    specWalk stubNode sampleWitness.IndexSender.val 0 [0, 0, 5120, 0] 916 = 158208 ∧
    ¬ specVerifies stubEnc 916 [916, 0, 0, 5120, 0] sampleWitness.IndexSender
        sampleWitness.MerkleProofSenderBefore.RootHash ∧
    specWalk stubNode sampleWitness.IndexSender.val 0 [0, 0, 5120, 0]
        (mimcHash stubEnc [916]) = sampleWitness.MerkleProofSenderBefore.RootHash := by
  decide

/-- C14 (amended). Inclusion: in an accepted witness each of the four proofs
verifies at its own index, the two proofs of the receiver at `IndexReceiver` and
the two proofs of the sender at `IndexSender`.  Verification starts from the hash
of the leaf `Path[0]`, goes through the `depth - 1` sibling entries of the path
from the leaf level to the root, combines at level `i` as
`Hash(running, sibling)` when bit `i` of the index is 0 and as
`Hash(sibling, running)` when it is 1, and after `depth - 1` combinations ends at
the root of the proof. -/
theorem inclusion (G : Gadgets) (c : Circuit) (h : accepts G c = true) :
    verifiesAt G.encryptFunc c.MerkleProofReceiverBefore c.IndexReceiver ∧
    verifiesAt G.encryptFunc c.MerkleProofReceiverAfter c.IndexReceiver ∧
    verifiesAt G.encryptFunc c.MerkleProofSenderBefore c.IndexSender ∧
    verifiesAt G.encryptFunc c.MerkleProofSenderAfter c.IndexSender := by
  obtain ⟨hw, -, -, -, -, -, -, -, -, -, p1, p2, p3, p4⟩ := (accepts_iff G c).1 h
  simp only [Circuit.wellShaped, Bool.and_eq_true] at hw
  obtain ⟨⟨⟨l1, l2⟩, l3⟩, l4⟩ := hw
  exact ⟨verifiesAt_of_proofHolds _ _ _ l1 p1, verifiesAt_of_proofHolds _ _ _ l2 p3,
    verifiesAt_of_proofHolds _ _ _ l3 p2, verifiesAt_of_proofHolds _ _ _ l4 p4⟩

/-- Instance of the amended C14 at the sample witness, for the proof of the sender
before the transfer: from the leaf 916 through the siblings 0, 0, 5120, 0 at index 2. -/
theorem inclusion_witness :
    accepts stubGadgets sampleWitness = true ∧
    verifiesAt stubEnc sampleWitness.MerkleProofSenderBefore sampleWitness.IndexSender :=
  ⟨by decide, (inclusion stubGadgets sampleWitness (by decide)).2.2.1⟩

/-! ## Range of the indexes -/

theorem pairWitness_accepted :
    ∀ i : Fin 16, accepts stubGadgets (pairWitness i.val) = true ∧
      (pairWitness i.val).IndexSender.val = i.val := by
  decide

theorem pairWitness_accepted_receiver :
    ∀ j : Fin 16, accepts stubGadgets (pairWitness (j.val ^^^ 1)) = true ∧
      (pairWitness (j.val ^^^ 1)).IndexReceiver.val = j.val := by
  decide

theorem index_lt_of_proofHolds (enc : Variable → Variable → Variable) (mp : MerkleProof)
    (index : Variable) (hlen : (mp.Path.length == depth) = true)
    (h : proofHolds enc mp index = true) :
    mp.Path.length = depth ∧ mp.Path.tail.length = depth - 1 ∧
      index.val < 2 ^ (depth - 1) := by
  obtain ⟨data, siblings, hp, hlt, -⟩ := (proofHolds_iff enc mp index).1 h
  have hl := beq_iff_eq.1 hlen
  rw [hp] at hl ⊢
  simp only [List.length_cons] at hl
  have hs : siblings.length = depth - 1 := by omega
  refine ⟨by simp [hl], by simpa using hs, ?_⟩
  rw [← hs]; exact hlt

/-- C16 (counterexample). Position 16 lies in `[0, 2 ^ 5)` and no witness with
`IndexSender = 16` is accepted, whatever the gadgets: a path of `depth = 5`
entries is the leaf and four sibling hashes, as in the accepted sample witness,
and `VerifyProof` decomposes the index over four bits. -/
theorem index_sixteen_not_admissible :
    16 < 2 ^ depth ∧
    (¬ ∃ (G : Gadgets) (c : Circuit), c.IndexSender.val = 16 ∧ accepts G c = true) ∧
    accepts stubGadgets sampleWitness = true ∧
    sampleWitness.MerkleProofSenderBefore.Path.tail.length = 4 := by
  refine ⟨by decide, ?_, by decide, by decide⟩
  rintro ⟨G, c, h16, h⟩
  obtain ⟨hw, -, -, -, -, -, -, -, -, -, -, p2, -, -⟩ := (accepts_iff G c).1 h
  simp only [Circuit.wellShaped, Bool.and_eq_true] at hw
  have hlt := (index_lt_of_proofHolds _ _ _ hw.1.2 p2).2.2
  rw [h16] at hlt
  exact absurd hlt (by decide)

/-- C16 (amended). Index range for `depth = 5`: in an accepted witness each of the
four paths has exactly 5 entries, the leaf and 4 sibling hashes, and both
indexes are below `2 ^ 4`; conversely each of the 16 positions below `2 ^ 4` is
admissible as `IndexSender` and as `IndexReceiver`: under the stub gadgets there
is an accepted witness with that index. -/
theorem index_range :
    (∀ (G : Gadgets) (c : Circuit), accepts G c = true →
      (c.MerkleProofReceiverBefore.Path.length = depth ∧
        c.MerkleProofReceiverBefore.Path.tail.length = depth - 1) ∧
      (c.MerkleProofReceiverAfter.Path.length = depth ∧
        c.MerkleProofReceiverAfter.Path.tail.length = depth - 1) ∧
      (c.MerkleProofSenderBefore.Path.length = depth ∧
        c.MerkleProofSenderBefore.Path.tail.length = depth - 1) ∧
      (c.MerkleProofSenderAfter.Path.length = depth ∧
        c.MerkleProofSenderAfter.Path.tail.length = depth - 1) ∧
      c.IndexSender.val < 2 ^ (depth - 1) ∧ c.IndexReceiver.val < 2 ^ (depth - 1)) ∧
    (∀ i : Nat, i < 2 ^ (depth - 1) →
      ∃ c : Circuit, accepts stubGadgets c = true ∧ c.IndexSender.val = i) ∧
    (∀ j : Nat, j < 2 ^ (depth - 1) →
      ∃ c : Circuit, accepts stubGadgets c = true ∧ c.IndexReceiver.val = j) := by
  refine ⟨?_, ?_, ?_⟩
  · intro G c h
    obtain ⟨hw, -, -, -, -, -, -, -, -, -, p1, p2, p3, p4⟩ := (accepts_iff G c).1 h
    simp only [Circuit.wellShaped, Bool.and_eq_true] at hw
    obtain ⟨⟨⟨l1, l2⟩, l3⟩, l4⟩ := hw
    have q1 := index_lt_of_proofHolds _ _ _ l1 p1
    have q2 := index_lt_of_proofHolds _ _ _ l3 p2
    have q3 := index_lt_of_proofHolds _ _ _ l2 p3
    have q4 := index_lt_of_proofHolds _ _ _ l4 p4
    exact ⟨⟨q1.1, q1.2.1⟩, ⟨q3.1, q3.2.1⟩, ⟨q2.1, q2.2.1⟩, ⟨q4.1, q4.2.1⟩, q2.2.2, q1.2.2⟩
  · intro i hi
    have hi16 : i < 16 := by simpa [depth] using hi
    exact ⟨pairWitness i, pairWitness_accepted ⟨i, hi16⟩⟩
  · intro j hj
    have hj16 : j < 16 := by simpa [depth] using hj
    exact ⟨pairWitness (j ^^^ 1), pairWitness_accepted_receiver ⟨j, hj16⟩⟩

/-- Instance of the amended C16: the sample witness has indexes 2 and 5 below 16,
and position 15 is admissible as `IndexSender`. -/
theorem index_range_witness :
    (accepts stubGadgets sampleWitness = true ∧
      sampleWitness.IndexSender.val < 2 ^ (depth - 1)) ∧
    ∃ c : Circuit, accepts stubGadgets c = true ∧ c.IndexSender.val = 15 :=
  ⟨⟨by decide, (index_range.1 stubGadgets sampleWitness (by decide)).2.2.2.2.1⟩,
   index_range.2.1 15 (by decide)⟩

/-! ## The end-to-end example -/

theorem proofHolds_of_verifiesAt (enc : Variable → Variable → Variable) (mp : MerkleProof)
    (index : Variable) (h : verifiesAt enc mp index) (hlt : index.val < 2 ^ (depth - 1)) :
    (mp.Path.length == depth) = true ∧ proofHolds enc mp index = true := by
  obtain ⟨data, siblings, hp, hl, hw⟩ := h
  refine ⟨by rw [hp]; simpa using hl, (proofHolds_iff enc mp index).2 ?_⟩
  refine ⟨data, siblings, hp, ?_, hw⟩
  have hs : siblings.length = depth - 1 := by omega
  rw [hs]; exact hlt

/-- C17 (failing input). `freshSignedWitness` is the end-to-end example: the
accounts, indexes and amount of the specification, unchanged keys, a signature
that the scheme accepts for the digest of the transfer under the key of the
sender, and four proofs that `VerifyProof` accepts against the common roots.
It is rejected: the assertion of `verifySignature` fails, the challenge being
hashed from the state that holds the digest.  The witness that differs from it
in the response of the signature only, fitted to that state, is accepted.  The
second half of the claim holds: with the amount 41 the witness is rejected. -/
theorem example_with_valid_signature_rejected :
    (freshSignedWitness.SenderAccountBefore =
        { Nonce := 3, Balance := 100, Index := 2, PubKey := senderKey } ∧
      freshSignedWitness.ReciverAccountBefore =
        { Nonce := 7, Balance := 10, Index := 5, PubKey := receiverKey } ∧
      freshSignedWitness.Transfer.Amount = 40 ∧
      freshSignedWitness.SenderAccountAfter =
        { Nonce := 4, Balance := 60, Index := 2, PubKey := senderKey } ∧
      freshSignedWitness.ReciverAccountAfter =
        { Nonce := 7, Balance := 50, Index := 5, PubKey := receiverKey }) ∧
    (freshSignedWitness.Transfer.SenderPubKey = freshSignedWitness.SenderAccountBefore.PubKey ∧
      schemeVerifies stubGadgets freshSignedWitness.Transfer.Signature
        (mimcHash stubEnc (transferFields freshSignedWitness.Transfer))
        freshSignedWitness.Transfer.SenderPubKey = true) ∧
    (freshSignedWitness.MerkleProofSenderBefore.RootHash = freshSignedWitness.RootHashBefore ∧
      freshSignedWitness.MerkleProofReceiverBefore.RootHash =
        freshSignedWitness.RootHashBefore ∧
      freshSignedWitness.MerkleProofSenderAfter.RootHash = freshSignedWitness.RootHashAfter ∧
      freshSignedWitness.MerkleProofReceiverAfter.RootHash =
        freshSignedWitness.RootHashAfter) ∧
    (proofHolds stubEnc freshSignedWitness.MerkleProofSenderBefore
        freshSignedWitness.IndexSender = true ∧
      proofHolds stubEnc freshSignedWitness.MerkleProofReceiverBefore
        freshSignedWitness.IndexReceiver = true ∧
      proofHolds stubEnc freshSignedWitness.MerkleProofSenderAfter
        freshSignedWitness.IndexSender = true ∧
      proofHolds stubEnc freshSignedWitness.MerkleProofReceiverAfter
        freshSignedWitness.IndexReceiver = true) ∧
    accepts stubGadgets freshSignedWitness = false ∧
    signatureHolds stubGadgets freshSignedWitness.Transfer = false ∧
    accepts stubGadgets { freshSignedWitness with
      Transfer := { freshSignedWitness.Transfer with
        Signature := { R := { X := 5, Y := 6 }, S := 704445 } } } = true ∧
    accepts stubGadgets { freshSignedWitness with
      Transfer := { freshSignedWitness.Transfer with Amount := 41 } } = false := by
  decide

/-! ## Completeness -/

/-- C18 (counterexample). `specLayoutWitness` passes the nine checks as the
specification states them, with five sibling hashes in each path, the indexes 18
and 21 below `2 ^ 5` and a signature the scheme accepts, and it is rejected.
The signature is not the reason: the witness is rejected whatever signature the
transfer carries, for all gadgets, because `VerifyProof` takes the first entry of
a path for the leaf and decomposes the index over four bits. -/
theorem nine_checks_rejected :
    nineChecks stubGadgets specLayoutWitness ∧
    accepts stubGadgets specLayoutWitness = false ∧
    ∀ (G : Gadgets) (sig : Signature),
      accepts G { specLayoutWitness with
        Transfer := { specLayoutWitness.Transfer with Signature := sig } } = false := by
  refine ⟨by decide, by decide, ?_⟩
  intro G sig
  refine rejects_of_not G _ (_ < 2 ^ (depth - 1)) (fun hacc => ?_) (?_ : ¬ (18 < 2 ^ (depth - 1)))
  · obtain ⟨hw, -, -, -, -, -, -, -, -, -, -, p2, -, -⟩ := (accepts_iff G _).1 hacc
    simp only [Circuit.wellShaped, Bool.and_eq_true] at hw
    exact (index_lt_of_proofHolds _ _ _ hw.1.2 p2).2.2
  · decide

/-- C18 (amended). Completeness, the signature apart: for a witness that passes the
checks of the specification other than the validity of the signature, inclusion
being taken in the layout of `VerifyProof` (the leaf `Path[0]`, `depth - 1`
siblings, index below `2 ^ (depth - 1)`), every assertion of `Define` other than
the one `verifySignature` records holds: the verdict is the outcome of that
assertion, and the code imposes no constraint beyond these checks and it. -/
theorem layout_checks_verdict (G : Gadgets) (c : Circuit)
    (h : layoutChecks G.encryptFunc c) :
    accepts G c =
      (G.Verify c.Transfer.Signature (mimcHash G.encryptFunc (transferFields c.Transfer))
        c.Transfer.SenderPubKey
        { h := mimcHash G.encryptFunc (transferFields c.Transfer), data := [] }).1 := by
  obtain ⟨hn, hle, hs, hr, ⟨ks, kr⟩, -, ⟨r1, r2, r3, r4⟩, ⟨i1, i2, i3, -⟩,
    ⟨v1, b1, -⟩, ⟨v2, b2, -⟩, ⟨v3, b3, -⟩, ⟨v4, b4, -⟩⟩ := h
  obtain ⟨l1, p1⟩ := proofHolds_of_verifiesAt _ _ _ v1 b1
  obtain ⟨l2, p2⟩ := proofHolds_of_verifiesAt _ _ _ v2 b2
  obtain ⟨l3, p3⟩ := proofHolds_of_verifiesAt _ _ _ v3 b3
  obtain ⟨l4, p4⟩ := proofHolds_of_verifiesAt _ _ _ v4 b4
  have h1 : ((1 : Variable) : Nat) = 1 := by decide
  rw [← signatureHolds_eq]
  cases hsig : signatureHolds G c.Transfer with
  | false =>
    refine rejects_of_not G c _ (accepts_signatureHolds G c) ?_
    rw [hsig]; decide
  | true =>
    refine (accepts_iff G c).2 ⟨?_, ?_, hsig, r2.symm, r1.symm, r4.symm, r3.symm,
      i3, i1, i2, p2, p1, p4, p3⟩
    · simp only [Circuit.wellShaped, Bool.and_eq_true]
      exact ⟨⟨⟨l2, l4⟩, l1⟩, l3⟩
    · rw [updatedHolds_iff]
      refine ⟨?_, hle, ?_, ?_, by rw [ks], by rw [ks], by rw [kr], by rw [kr]⟩
      · apply Fin.ext
        rw [Fin.val_add, h1, ← hn]
        exact Nat.mod_eq_of_lt c.SenderAccountAfter.Nonce.isLt
      · apply Fin.ext
        rw [Fin.coe_sub_iff_le.2 hle]
        omega
      · apply Fin.ext
        rw [Fin.val_add, ← hr]
        exact Nat.mod_eq_of_lt c.ReciverAccountAfter.Balance.isLt

theorem sampleWitness_layoutChecks : layoutChecks stubEnc sampleWitness :=
  ⟨by decide, by decide, by decide, by decide, by decide, by decide, by decide, by decide,
   ⟨⟨_, _, rfl, rfl, by decide⟩, by decide, by decide⟩,
   ⟨⟨_, _, rfl, rfl, by decide⟩, by decide, by decide⟩,
   ⟨⟨_, _, rfl, rfl, by decide⟩, by decide, by decide⟩,
   ⟨⟨_, _, rfl, rfl, by decide⟩, by decide, by decide⟩⟩

/-- Instance of the amended C18: the sample witness passes the checks, and its
verdict is the outcome of the assertion of `verifySignature`, which holds. -/
theorem layout_checks_verdict_witness :
    layoutChecks stubEnc sampleWitness ∧
    accepts stubGadgets sampleWitness =
      (stubVerify sampleWitness.Transfer.Signature
        (mimcHash stubEnc (transferFields sampleWitness.Transfer))
        sampleWitness.Transfer.SenderPubKey
        { h := mimcHash stubEnc (transferFields sampleWitness.Transfer), data := [] }).1 :=
  ⟨sampleWitness_layoutChecks,
   layout_checks_verdict stubGadgets sampleWitness sampleWitness_layoutChecks⟩

/-! ## Binding of the signature to the receiver -/

theorem verifySignature_assertions_any (G : Gadgets) (api : API) (t : Transfer)
    (hFunc : MiMC) :
    (verifySignature G api t hFunc).1.assertions =
      api.assertions ++ [signatureHolds G t] := by
  simp only [verifySignature, transferDigest_eq, signatureHolds_eq]
  split <;> simp [API.assert]

/-- The stub check accepts the sample signature under the sample sender key for
one message only, the digest 1872 of the sample transfer: the challenge is
`34 msg + 392`, so the check reads `374 msg + 4317 = 704445`. -/
theorem stubVerify_sample_only (msg : Variable)
    (h : (stubVerify sampleTransfer.Signature msg sampleTransfer.SenderPubKey
      { h := msg, data := [] }).1 = true) : msg = 1872 := by
  simp only [stubVerify, sampleTransfer, senderKey, MiMC.Write, MiMC.Sum, stubEnc,
    List.nil_append, List.foldl, decide_eq_true_eq] at h
  have hc : (704445 : Variable) = 374 * msg + 4317 := by rw [h]; ring
  have hinv : inverse374 * 374 = 1 := by decide
  calc msg = (inverse374 * 374) * msg := by rw [hinv, one_mul]
    _ = inverse374 * ((374 * msg + 4317) - 4317) := by ring
    _ = inverse374 * (704445 - 4317) := by rw [← hc]
    _ = 1872 := by decide

/-- C11. Signature binding to the receiver: take two transfers with the same
nonce, amount, sender key and signature whose receiver keys differ in `X` or in
`Y`, and a hash without a collision on their two field sequences.  Then
`verifySignature` checks the signature against two different digests, whatever
hashers it is handed; and a signature that the scheme accepts, under the sender
key, for the first digest only fails the check for the second transfer: the
assertion `verifySignature` records is false and every witness that carries the
second transfer is rejected. -/
theorem signature_binds_receiver (G : Gadgets) (t1 t2 : Transfer)
    (_hn : t1.Nonce = t2.Nonce) (_ha : t1.Amount = t2.Amount)
    (hk : t1.SenderPubKey = t2.SenderPubKey) (hs : t1.Signature = t2.Signature)
    (hr : t1.ReceiverPubKey.A.X ≠ t2.ReceiverPubKey.A.X ∨
      t1.ReceiverPubKey.A.Y ≠ t2.ReceiverPubKey.A.Y)
    (hcf : mimcHash G.encryptFunc (transferFields t1) =
      mimcHash G.encryptFunc (transferFields t2) → transferFields t1 = transferFields t2)
    (honly : ∀ msg : Variable,
      (G.Verify t1.Signature msg t1.SenderPubKey { h := msg, data := [] }).1 = true →
        msg = mimcHash G.encryptFunc (transferFields t1)) :
    (∀ h1 h2 : MiMC,
      (transferDigest G.encryptFunc t1 h1).1 ≠ (transferDigest G.encryptFunc t2 h2).1) ∧
    (∀ (api : API) (hFunc : MiMC),
      (verifySignature G api t2 hFunc).1.assertions = api.assertions ++ [false]) ∧
    (∀ c : Circuit, c.Transfer = t2 → accepts G c = false) := by
  have hfields : transferFields t1 ≠ transferFields t2 := by
    intro he
    simp only [transferFields, List.cons.injEq] at he
    rcases hr with h | h
    · exact h he.2.2.2.2.1
    · exact h he.2.2.2.2.2.1
  have hdig : mimcHash G.encryptFunc (transferFields t1) ≠
      mimcHash G.encryptFunc (transferFields t2) := fun he => hfields (hcf he)
  have hfalse : signatureHolds G t2 = false := by
    cases hv : signatureHolds G t2 with
    | false => rfl
    | true =>
      rw [signatureHolds_eq, ← hs, ← hk] at hv
      exact absurd (honly _ hv).symm hdig
  refine ⟨?_, ?_, ?_⟩
  · intro h1 h2
    rw [transferDigest_eq, transferDigest_eq]
    exact hdig
  · intro api hFunc
    rw [verifySignature_assertions_any, hfalse]
  · intro c hc
    refine rejects_of_not G c _ (accepts_signatureHolds G c) ?_
    rw [hc, hfalse]
    decide

/-- Instance of C11: the sample transfer and the same transfer with the receiver
swapped for `foreignKey`, digests 1872 and 1932, under the stub gadgets. -/
theorem signature_binds_receiver_witness :
    (transferDigest stubEnc sampleTransfer NewMiMC).1 ≠
      (transferDigest stubEnc swappedReceiverTransfer NewMiMC).1 ∧
    accepts stubGadgets sampleWitness = true ∧
    accepts stubGadgets { sampleWitness with Transfer := swappedReceiverTransfer } = false :=
  have key := signature_binds_receiver stubGadgets sampleTransfer swappedReceiverTransfer
    (by decide) (by decide) (by decide) (by decide) (by decide) (by decide)
    stubVerify_sample_only
  ⟨key.1 NewMiMC NewMiMC, by decide, key.2.2 _ rfl⟩

/-! ## Merkle soundness -/

theorem climb_ne_of_ne (enc : Variable → Variable → Variable) (S : List (List Variable))
    (hcf : collisionFreeOn enc S) (bits path : List Variable) (s t : Variable)
    (hs : ∀ x ∈ climbInputs enc bits path s, x ∈ S)
    (ht : ∀ x ∈ climbInputs enc bits path t, x ∈ S) (hne : s ≠ t) :
    climb enc bits path s ≠ climb enc bits path t := by
  induction bits generalizing path s t with
  | nil => simpa [climb] using hne
  | cons bit bits ih =>
    cases path with
    | nil => simpa [climb] using hne
    | cons p path =>
      simp only [climb]
      simp only [climbInputs, List.mem_cons, forall_eq_or_imp] at hs ht
      refine ih path _ _ hs.2 ht.2 ?_
      intro he
      have := hcf _ hs.1 _ ht.1 he
      by_cases hb : bit = 1
      · simp [hb] at this; exact hne this
      · simp [hb] at this; exact hne this

theorem climb_set_ne (enc : Variable → Variable → Variable) (S : List (List Variable))
    (hcf : collisionFreeOn enc S) (bits path : List Variable) (k : Nat) (v s : Variable)
    (hk : k < path.length) (hb : k < bits.length) (hv : path[k]? ≠ some v)
    (hs : ∀ x ∈ climbInputs enc bits path s, x ∈ S)
    (ht : ∀ x ∈ climbInputs enc bits (path.set k v) s, x ∈ S) :
    climb enc bits path s ≠ climb enc bits (path.set k v) s := by
  induction bits generalizing path k s with
  | nil => simp at hb
  | cons bit bits ih =>
    cases path with
    | nil => simp at hk
    | cons p path =>
      cases k with
      | zero =>
        simp only [List.set_cons_zero, climb]
        simp only [List.set_cons_zero, climbInputs, List.mem_cons, forall_eq_or_imp] at hs ht
        have hpv : p ≠ v := by simpa using hv
        refine climb_ne_of_ne enc S hcf bits path _ _ hs.2 ht.2 ?_
        intro he
        have := hcf _ hs.1 _ ht.1 he
        by_cases hb1 : bit = 1
        · simp [hb1] at this; exact hpv this
        · simp [hb1] at this; exact hpv this
      | succ k =>
        simp only [List.set_cons_succ, climb]
        simp only [List.set_cons_succ, climbInputs, List.mem_cons, forall_eq_or_imp] at hs ht
        exact ih path k _ (by simpa using hk) (by simpa using hb) (by simpa using hv)
          hs.2 ht.2

theorem indexBits_length (index : Variable) (n : Nat) : (indexBits index n).length = n := by
  simp [indexBits]

/-- Replacing one entry of a path that verifies, by a different value, gives a path
that does not verify, when the hash has no collision among the inputs of the two
verifications. -/
theorem proofHolds_set (enc : Variable → Variable → Variable) (root index : Variable)
    (path : List Variable) (k : Nat) (v : Variable)
    (h : proofHolds enc { RootHash := root, Path := path } index = true)
    (hk : k < path.length) (hv : path[k]? ≠ some v)
    (hcf : collisionFreeOn enc
      (proofInputs enc path index ++ proofInputs enc (path.set k v) index)) :
    proofHolds enc { RootHash := root, Path := path.set k v } index = false := by
  cases path with
  | nil => simp at hk
  | cons data siblings =>
    simp only [proofHolds, Bool.and_eq_true, decide_eq_true_eq] at h
    obtain ⟨hlt, hroot⟩ := h
    cases k with
    | zero =>
      simp only [List.set_cons_zero, proofHolds, Bool.and_eq_false_iff, decide_eq_false_iff_not]
      right
      rw [← hroot]
      have hdv : data ≠ v := by simpa using hv
      simp only [List.set_cons_zero, proofInputs] at hcf
      refine Ne.symm (climb_ne_of_ne enc _ hcf _ siblings _ _ ?_ ?_ ?_)
      · intro x hx; simp [hx]
      · intro x hx; simp [hx]
      · intro he
        have := hcf [data] (by simp) [v] (by simp) he
        simp at this
        exact hdv this
    | succ k =>
      simp only [List.set_cons_succ, proofHolds, List.length_set, Bool.and_eq_false_iff,
        decide_eq_false_iff_not]
      right
      rw [← hroot]
      simp only [List.set_cons_succ, proofInputs, List.length_set] at hcf
      refine Ne.symm (climb_set_ne enc _ hcf _ siblings k v _ (by simpa using hk)
        (by rw [indexBits_length]; simpa using hk) (by simpa using hv) ?_ ?_)
      · intro x hx; simp [hx]
      · intro x hx; simp [hx]

/-- C15. Merkle soundness: take an accepted witness, any one of its four proofs
and any position of its path, and replace the entry there by a different value,
every other field unchanged.  If the hash has no collision among the inputs that
the verification of the original proof and of the altered proof hash, the
altered witness is rejected. -/
theorem merkle_soundness (G : Gadgets) (c : Circuit) (s : ProofSlot) (k : Nat)
    (v : Variable) (h : accepts G c = true)
    (hk : k < (c.proofAt s).Path.length) (hv : (c.proofAt s).Path[k]? ≠ some v)
    (hcf : collisionFreeOn G.encryptFunc
      (proofInputs G.encryptFunc (c.proofAt s).Path (c.indexAt s) ++
        proofInputs G.encryptFunc ((c.proofAt s).Path.set k v) (c.indexAt s))) :
    accepts G (c.withPath s ((c.proofAt s).Path.set k v)) = false := by
  obtain ⟨-, -, -, -, -, -, -, -, -, -, p1, p2, p3, p4⟩ := (accepts_iff G c).1 h
  cases s with
  | receiverBefore =>
    have hf := proofHolds_set G.encryptFunc c.MerkleProofReceiverBefore.RootHash
      c.IndexReceiver c.MerkleProofReceiverBefore.Path k v p1 hk hv hcf
    refine rejects_of_not G _ _ (fun hacc => ((accepts_iff G _).1 hacc).2.2.2.2.2.2.2.2.2.2.1) ?_
    intro ht
    exact absurd (ht.symm.trans hf) (by decide)
  | receiverAfter =>
    have hf := proofHolds_set G.encryptFunc c.MerkleProofReceiverAfter.RootHash
      c.IndexReceiver c.MerkleProofReceiverAfter.Path k v p3 hk hv hcf
    refine rejects_of_not G _ _
      (fun hacc => ((accepts_iff G _).1 hacc).2.2.2.2.2.2.2.2.2.2.2.2.1) ?_
    intro ht
    exact absurd (ht.symm.trans hf) (by decide)
  | senderBefore =>
    have hf := proofHolds_set G.encryptFunc c.MerkleProofSenderBefore.RootHash
      c.IndexSender c.MerkleProofSenderBefore.Path k v p2 hk hv hcf
    refine rejects_of_not G _ _
      (fun hacc => ((accepts_iff G _).1 hacc).2.2.2.2.2.2.2.2.2.2.2.1) ?_
    intro ht
    exact absurd (ht.symm.trans hf) (by decide)
  | senderAfter =>
    have hf := proofHolds_set G.encryptFunc c.MerkleProofSenderAfter.RootHash
      c.IndexSender c.MerkleProofSenderAfter.Path k v p4 hk hv hcf
    refine rejects_of_not G _ _
      (fun hacc => ((accepts_iff G _).1 hacc).2.2.2.2.2.2.2.2.2.2.2.2.2) ?_
    intro ht
    exact absurd (ht.symm.trans hf) (by decide)

/-- Instance of C15 at the sample witness: the sibling at position 2 of the path of
the sender before the transfer, 0, is replaced by 1, its lowest bit flipped; the
stub hash has no collision among the ten inputs of the two verifications. -/
theorem merkle_soundness_witness :
    accepts stubGadgets sampleWitness = true ∧
    (sampleWitness.withPath .senderBefore [916, 0, 1, 5120, 0]).MerkleProofSenderBefore.Path =
      [916, 0, 1, 5120, 0] ∧
    accepts stubGadgets (sampleWitness.withPath .senderBefore [916, 0, 1, 5120, 0]) = false :=
  ⟨by decide, rfl,
   merkle_soundness stubGadgets sampleWitness .senderBefore 2 1 (by decide) (by decide)
    (by decide) (by decide)⟩

end Rollup
